import Mathlib

/-!
Shallow embedding of the `money` TypeScript library (`src/money.ts` and
`src/currency.ts`) together with proofs about its behaviour.

JavaScript numbers are IEEE-754 binary64 values.  They are embedded as
`JSNum`: `NaN`, the two signed infinities, and finite values represented as
exact rationals lying on the binary64 grid.  Arithmetic on finite values is
exact rational arithmetic followed by `roundDbl` (round to nearest, ties to
even, onto the grid of numbers `m * 2 ^ g` with `g ≥ -1074`), with overflow
to the infinities.  Negative zero is not distinguished from positive zero:
no operation modelled here lets the two zeros produce observably different
results in the functions under study.
-/

/-- Decidable equality for `Except` results, so that concrete runs of the
fallible operations can be settled by evaluation. -/
instance {ε α : Type} [DecidableEq ε] [DecidableEq α] : DecidableEq (Except ε α)
  | .error a, .error b =>
    if h : a = b then .isTrue (by rw [h]) else .isFalse (by simp [h])
  | .error _, .ok _ => .isFalse (by simp)
  | .ok _, .error _ => .isFalse (by simp)
  | .ok a, .ok b =>
    if h : a = b then .isTrue (by rw [h]) else .isFalse (by simp [h])

/-- Equality of rationals decided by comparing numerators and denominators
with `==`, which evaluates in one step on literals (the instance that comes
with `Rat` recurses once per unit of the numerals). -/
instance (priority := 2000) : DecidableEq ℚ := fun a b =>
  decidable_of_iff ((a.num == b.num && a.den == b.den) = true)
    (by
      rw [Bool.and_eq_true, beq_iff_eq, beq_iff_eq]
      exact ⟨fun h => Rat.ext h.1 h.2, fun h => by rw [h]; exact ⟨rfl, rfl⟩⟩)

/-- Number of binary digits of `n`, computed with explicit fuel so that the
kernel can evaluate it (`bitlen fuel n` is correct whenever `n < 2 ^ fuel`). -/
def bitlen : ℕ → ℕ → ℕ
  | 0, _ => 0
  | fuel + 1, n => if n = 0 then 0 else bitlen fuel (n / 2) + 1

/-- Number of binary digits of `n` (`0` for `n = 0`). -/
def nbits (n : ℕ) : ℕ := bitlen n n

/-- `2 ^ k` computed by bit shifting, which both the elaborator and the
kernel fold in a single step on literals. -/
def pow2 (k : ℕ) : ℕ := 1 <<< k

/-- The rational value of a natural number, built directly from the
`Rat` structure so that evaluation is a single step. -/
def natQ (n : ℕ) : ℚ := Rat.ofInt (Int.ofNat n)

/-- Floor of the base-2 logarithm of `|q|`, for `q ≠ 0`:
the unique `e` with `2 ^ e ≤ |q| < 2 ^ (e + 1)`.  The guess from the bit
lengths of numerator and denominator is off by at most one; the comparison
`2 ^ e0 ≤ |q|` is decided on natural numbers. -/
def qlog2 (q : ℚ) : ℤ :=
  let n := q.num.natAbs
  let e0 : ℤ := Int.ofNat (nbits n) - Int.ofNat (nbits q.den)
  if 0 ≤ e0 then (if pow2 e0.toNat * q.den ≤ n then e0 else e0 - 1)
  else (if q.den ≤ n * pow2 (-e0).toNat then e0 else e0 - 1)

/-- Round a rational to the nearest integer, ties to the even integer. -/
def roundHalfEven (x : ℚ) : ℤ :=
  if x - ⌊x⌋ < 1 / 2 then ⌊x⌋
  else if 1 / 2 < x - ⌊x⌋ then ⌊x⌋ + 1
  else if Even ⌊x⌋ then ⌊x⌋ else ⌊x⌋ + 1

/-- `roundHalfEven (a / b)` for `b > 0`, computed on integers so that
concrete evaluation stays shallow (see `roundQ_eq`). -/
def roundQ (a : ℤ) (b : ℕ) : ℤ :=
  let n := Int.ediv a (Int.ofNat b)
  let r := Int.emod a (Int.ofNat b)
  if 2 * r < Int.ofNat b then n
  else if Int.ofNat b < 2 * r then n + 1
  else if Int.emod n 2 = 0 then n else n + 1

/-- Exponent of the binary64 grid spacing around the value `q`:
`qlog2 q - 52` in the normal range, `-1074` in the subnormal range
(so the maximum of the two, see `dgrid_eq`). -/
def dgrid (q : ℚ) : ℤ :=
  if qlog2 q ≤ -1022 then -1074 else qlog2 q - 52

/-- Round an exact rational to the binary64 grid: round to nearest,
ties to even significand.  (Overflow is handled by `roundDblOv`;
`roundDbl_eq` states the value in closed form.)  A rational is zero
exactly when its numerator is. -/
def roundDbl (q : ℚ) : ℚ :=
  if q.num = 0 then Rat.ofInt 0
  else
    let g := dgrid q
    if 0 ≤ g then
      Rat.ofInt (roundQ q.num (q.den * pow2 g.toNat) * Int.ofNat (pow2 g.toNat))
    else
      mkRat (roundQ (q.num * Int.ofNat (pow2 (-g).toNat)) q.den) (pow2 (-g).toNat)

/-- A JavaScript number: `NaN`, an infinity (`inf true` is `+∞`), or a
finite binary64 value given by its exact rational value. -/
inductive JSNum where
  | nan : JSNum
  | inf : Bool → JSNum
  | fin : ℚ → JSNum
deriving DecidableEq

/-- `2 ^ 1024`, the overflow threshold of binary64. -/
def twoPow1024 : ℚ := natQ (pow2 1024)

/-- Round an exact rational to a binary64 value, overflowing to the
infinities exactly when IEEE-754 round-to-nearest does.  The comparisons
are phrased with `Rat.blt`: `a ≤ b` is `Rat.blt b a = false`. -/
def roundDblOv (q : ℚ) : JSNum :=
  let r := roundDbl q
  if Rat.blt r twoPow1024 = false then .inf true
  else if Rat.blt (Rat.neg twoPow1024) r = false then .inf false
  else .fin r

/-- JavaScript unary minus on numbers. -/
def jneg : JSNum → JSNum
  | .nan => .nan
  | .inf s => .inf (!s)
  | .fin q => .fin (Rat.neg q)

/-- JavaScript multiplication of numbers (IEEE-754 binary64 `*`).
A finite value is zero (or positive) exactly when its numerator is. -/
def jmul : JSNum → JSNum → JSNum
  | .nan, _ => .nan
  | _, .nan => .nan
  | .inf s, .inf t => .inf (s == t)
  | .inf s, .fin q => if q.num = 0 then .nan else .inf (s == decide (0 < q.num))
  | .fin q, .inf s => if q.num = 0 then .nan else .inf (s == decide (0 < q.num))
  | .fin a, .fin b => roundDblOv (Rat.mul a b)

/-- JavaScript subtraction of numbers (IEEE-754 binary64 `-`). -/
def jsub : JSNum → JSNum → JSNum
  | .nan, _ => .nan
  | _, .nan => .nan
  | .inf s, .inf t => if s = t then .nan else .inf s
  | .inf s, .fin _ => .inf s
  | .fin _, .inf t => .inf (!t)
  | .fin a, .fin b => roundDblOv (Rat.sub a b)

/-- JavaScript division of numbers (IEEE-754 binary64 `/`). -/
def jdiv : JSNum → JSNum → JSNum
  | .nan, _ => .nan
  | _, .nan => .nan
  | .inf _, .inf _ => .nan
  | .inf s, .fin q => if q.num = 0 then .inf s else .inf (s == decide (0 < q.num))
  | .fin _, .inf _ => .fin (Rat.ofInt 0)
  | .fin a, .fin b =>
    if b.num = 0 then (if a.num = 0 then .nan else .inf (decide (0 < a.num)))
    else roundDblOv (Rat.div a b)

/-- `Math.trunc`: drop the fractional part, rounding toward zero
(`Int.tdiv` is T-division, see `jtrunc_eq`). -/
def jtrunc : JSNum → JSNum
  | .nan => .nan
  | .inf s => .inf s
  | .fin q => .fin (Rat.ofInt (Int.tdiv q.num (Int.ofNat q.den)))

/-- JavaScript `>` on numbers (`false` whenever an operand is `NaN`). -/
def jgt : JSNum → JSNum → Bool
  | .nan, _ => false
  | _, .nan => false
  | .inf s, .inf t => s && !t
  | .inf s, .fin _ => s
  | .fin _, .inf t => !t
  | .fin a, .fin b => Rat.blt b a

/-- JavaScript `<` on numbers (`a < b` is `b > a`). -/
def jlt (a b : JSNum) : Bool := jgt b a

/-- JavaScript `===` on numbers (`false` whenever an operand is `NaN`). -/
def jeq : JSNum → JSNum → Bool
  | .nan, _ => false
  | _, .nan => false
  | .inf s, .inf t => s == t
  | .inf _, .fin _ => false
  | .fin _, .inf _ => false
  | .fin a, .fin b => decide (a = b)

/-- JavaScript global `isNaN` restricted to numbers. -/
def JSNum.isNaN : JSNum → Bool
  | .nan => true
  | _ => false

/-! ### `parseFloat`

ECMAScript `parseFloat`: strip leading white space, then take the longest
prefix that is a `StrDecimalLiteral` (optional sign, then `Infinity` or a
decimal literal with optional fraction and exponent).  If there is no such
prefix the result is `NaN`; otherwise the result is the mathematical value
of the literal rounded to binary64.  Only the value of the longest valid
prefix matters, so the lexer below is greedy and simply ignores whatever
follows. -/

/-- ECMAScript white-space characters relevant to `parseFloat`
(the common subset; other Unicode `Zs` characters never occur here). -/
def isWS (c : Char) : Bool :=
  c == ' ' || c == '\t' || c == '\n' || c == '\r' ||
    c.toNat == 11 || c.toNat == 12 || c.toNat == 160 || c.toNat == 65279

/-- Numeric value of a decimal digit character. -/
def charDigit (c : Char) : ℕ := c.toNat - 48

/-- Value of a list of decimal digit characters, most significant first. -/
def digitsVal (ds : List Char) : ℕ :=
  ds.foldl (fun a c => 10 * a + charDigit c) 0

/-- Decimal digits of the exponent part (greedy). -/
def parseExpDigits (cs : List Char) : ℤ :=
  (digitsVal (cs.takeWhile Char.isDigit) : ℤ)

/-- Exponent part after `e`/`E`: optional sign, then digits.  If no digits
follow, the exponent part is not consumed and the value is unaffected,
which the value `0` represents exactly. -/
def parseExpSign : List Char → ℤ
  | '+' :: rest => parseExpDigits rest
  | '-' :: rest => -parseExpDigits rest
  | rest => parseExpDigits rest

/-- Exponent part of a decimal literal (`0` when absent or malformed). -/
def parseExpPart : List Char → ℤ
  | 'e' :: rest => parseExpSign rest
  | 'E' :: rest => parseExpSign rest
  | _ => 0

/-- `(10 : ℚ) ^ e` for an integer exponent, built without instance-routed
power so that evaluation stays shallow. -/
def powTen (e : ℤ) : ℚ :=
  if 0 ≤ e then natQ (10 ^ e.toNat) else mkRat 1 (10 ^ (-e).toNat)

/-- `parseFloat` after white space and sign: `Infinity`, or integer digits,
optional `.` and fraction digits, optional exponent part.  The value fed to
the rounding is the exact mathematical value of the literal,
`(d1 + d2 / 10 ^ |d2|) * 10 ^ exp`. -/
def parseFloatCore (cs : List Char) : JSNum :=
  if cs.take 8 = ['I', 'n', 'f', 'i', 'n', 'i', 't', 'y'] then .inf true
  else
    let d1 := cs.takeWhile Char.isDigit
    let r1 := cs.dropWhile Char.isDigit
    let p := match r1 with
      | '.' :: cs2 => (cs2.takeWhile Char.isDigit, cs2.dropWhile Char.isDigit)
      | _ => ([], r1)
    if d1 = [] ∧ p.1 = [] then .nan
    else
      roundDblOv (Rat.mul
        (Rat.add (natQ (digitsVal d1))
          (mkRat (Int.ofNat (digitsVal p.1)) (10 ^ p.1.length)))
        (powTen (parseExpPart p.2)))

/-- ECMAScript `parseFloat` on the characters of the input string. -/
def parseFloat (cs : List Char) : JSNum :=
  match cs.dropWhile isWS with
  | '+' :: rest => parseFloatCore rest
  | '-' :: rest => jneg (parseFloatCore rest)
  | rest => parseFloatCore rest

/-! ### `Number.prototype.toFixed`

ECMAScript `toFixed(f)`: for finite `x`, let `n` be the integer for which
`n / 10 ^ f - x` is closest to zero (the larger `n` on a tie, taken on
`|x|` after extracting the sign) and print `n` with a decimal point `f`
digits from the right.  The branch for `|x| ≥ 10 ^ 21` (fall back to
`ToString`) is omitted: every call site in this development divides an
amount of magnitude at most `2 ^ 53 - 1` by a positive power of ten, so
that branch is unreachable. -/

/-- Decimal digit characters of `n`, most significant first, with fuel
(`natDigits fuel n` is correct whenever `n ≤ fuel`). -/
def natDigits : ℕ → ℕ → List Char
  | 0, _ => []
  | fuel + 1, n =>
    if n < 10 then [Nat.digitChar n]
    else natDigits fuel (n / 10) ++ [Nat.digitChar (n % 10)]

/-- Decimal digit characters of a natural number. -/
def natDecimal (n : ℕ) : List Char := natDigits (n + 1) n

/-- Pad a digit list with leading zeros up to length `f`. -/
def zeroPad (ds : List Char) (f : ℕ) : List Char :=
  List.replicate (f - ds.length) '0' ++ ds

/-- Characters of the fixed-point rendering of the integer `n / 10 ^ f`
with exactly `f` fractional digits. -/
def renderFixedChars (n : ℕ) (f : ℕ) : List Char :=
  if f = 0 then natDecimal n
  else natDecimal (n / 10 ^ f) ++ '.' :: zeroPad (natDecimal (n % 10 ^ f)) f

/-- `⌊y + 1 / 2⌋`, the integer nearest `y` with the larger one taken on a
tie, computed on the numerator and denominator (see `halfUp_eq`). -/
def halfUp (y : ℚ) : ℤ :=
  Int.ediv (2 * y.num + Int.ofNat y.den) (2 * Int.ofNat y.den)

/-- The nonnegative branch of `toFixed`: the integer closest to
`x * 10 ^ f`, the larger one on a tie. -/
def toFixedPos (x : ℚ) (f : ℕ) : List Char :=
  renderFixedChars (halfUp (Rat.mul x (natQ (10 ^ f)))).toNat f

/-- ECMAScript `Number.prototype.toFixed` (see the section comment). -/
def jsToFixed (x : JSNum) (f : ℕ) : String :=
  match x with
  | .nan => "NaN"
  | .inf s => if s then "Infinity" else "-Infinity"
  | .fin q =>
    if Rat.blt q (Rat.ofInt 0) then String.mk ('-' :: toFixedPos (Rat.neg q) f)
    else String.mk (toFixedPos q f)

/-- Characters of the exact decimal representation of `a / 10 ^ f` with
exactly `f` fractional digits and a leading minus sign when `a < 0`.
This is the specification-side description of what a decimal rendering of
an integer amount `a` in minor units must look like. -/
def decimalChars (a : ℤ) (f : ℕ) : List Char :=
  (if a < 0 then ['-'] else []) ++ renderFixedChars a.natAbs f

/-- The exact decimal representation of `a / 10 ^ f` as a string. -/
def decimalString (a : ℤ) (f : ℕ) : String := String.mk (decimalChars a f)

/-! ### Errors

The three exception classes of the library.  Each constructor stores the
argument passed to the corresponding class constructor in the source. -/

/-- The exceptions thrown by the library: `MoneyException` (stores its
message), `MoneyParseException` (stores the unparsed input text) and
`InvalidCurrencyException` (stores the offending currency code, with the
JavaScript rendering `"undefined"` when the code token was missing). -/
inductive JSException where
  | moneyException : String → JSException
  | moneyParseException : String → JSException
  | invalidCurrencyException : String → JSException
deriving DecidableEq

/-- The `message` property of the thrown exception. -/
def JSException.message : JSException → String
  | .moneyException m => m
  | .moneyParseException t => "Impossible to parse money: " ++ t
  | .invalidCurrencyException c => "Invalid currency: " ++ "'" ++ c ++ "'"

/-! ### Currency -/

/-- Modelled from the spec: the external currency-metadata table
(the `@dinero.js/currencies` package, which is not part of this
repository's sources) maps each ISO-4217 code to its exponent and base.
It is modelled as a finite list of `(code, exponent, base)` entries
containing the currencies exercised by the specification; per the spec it
is read-only, pre-populated, and keyed by exact (case-sensitive) code. -/
def currenciesTable : List (String × ℕ × ℕ) :=
  [("EUR", 2, 10), ("USD", 2, 10), ("BRL", 2, 10),
   ("JPY", 0, 10), ("BHD", 3, 10), ("CLF", 4, 10)]

/-- An immutable currency value: the wrapped metadata exposed by the
`code`, `exponent` and `base` getters of `src/currency.ts`. -/
structure Currency where
  code : String
  exponent : ℕ
  base : ℕ
deriving DecidableEq

/-- `Currency.equals`: codes compared with `===`. -/
def Currency.equals (a b : Currency) : Bool := a.code == b.code

/-- `Currency.parse`.  The argument is an `Option` because `Money.parse`
passes the second element of a destructured array, which is `undefined`
when the input has no space; indexing the table with `undefined` misses
and the thrown error renders the code as the string "undefined". -/
def Currency.parse (code : Option String) : Except JSException Currency :=
  match code with
  | none => .error (.invalidCurrencyException "undefined")
  | some c =>
    match currenciesTable.find? (fun ent => ent.1 == c) with
    | some (k, e, b) => .ok ⟨k, e, b⟩
    | none => .error (.invalidCurrencyException c)

/-- `currency.base ** currency.exponent`.  JavaScript computes this with
binary64 `**`; for every table entry the result is an integer at most
`10 ^ 4 < 2 ^ 53`, hence exact, so the rational power is the faithful
embedding. -/
def Currency.basePow (c : Currency) : ℚ := natQ (c.base ^ c.exponent)

/-! ### Money -/

/-- A monetary value: an amount (a JavaScript number) and a currency. -/
structure Money where
  amount : JSNum
  currency : Currency
deriving DecidableEq

/-- `Number.MAX_SAFE_INTEGER`, the integer `2 ^ 53 - 1`. -/
def maxSafeInteger : ℚ := natQ (pow2 53 - 1)

/-- `Number.MIN_SAFE_INTEGER`, the integer `-(2 ^ 53 - 1)`. -/
def minSafeInteger : ℚ := Rat.neg (natQ (pow2 53 - 1))

/-- The `Money` constructor: throws `MoneyException` when
`amount > Number.MAX_SAFE_INTEGER || amount < Number.MIN_SAFE_INTEGER`,
otherwise stores both fields unchanged. -/
def Money.new (amount : JSNum) (currency : Currency) : Except JSException Money :=
  if jgt amount (.fin maxSafeInteger) || jlt amount (.fin minSafeInteger) then
    .error (.moneyException "Unsafe integer amount!")
  else .ok ⟨amount, currency⟩

/-- `Money.hasSameCurrency`. -/
def Money.hasSameCurrency (a other : Money) : Bool :=
  a.currency.equals other.currency

/-- `Money.compareTo`: throws on different currencies, otherwise returns
the binary64 difference of the amounts. -/
def Money.compareTo (a other : Money) : Except JSException JSNum :=
  if a.hasSameCurrency other then .ok (jsub a.amount other.amount)
  else .error (.moneyException
    "Impossible to compare monetary values with different currencies.")

/-- `Money.isGreaterThan`: `compareTo(other) > 0`. -/
def Money.isGreaterThan (a other : Money) : Except JSException Bool :=
  (a.compareTo other).map (fun n => jgt n (.fin (Rat.ofInt 0)))

/-- `Money.isLessThan`: `compareTo(other) < 0`. -/
def Money.isLessThan (a other : Money) : Except JSException Bool :=
  (a.compareTo other).map (fun n => jlt n (.fin (Rat.ofInt 0)))

/-- `Money.equals`: `compareTo(other) === 0`. -/
def Money.equals (a other : Money) : Except JSException Bool :=
  (a.compareTo other).map (fun n => jeq n (.fin (Rat.ofInt 0)))

/-- `Money.convertAmountToDecimal`: `amount / base ** exponent`. -/
def Money.convertAmountToDecimal (m : Money) : JSNum :=
  jdiv m.amount (.fin m.currency.basePow)

/-- `Money.toString`: the converted amount printed with
`toFixed(exponent)`, a space, and the currency code. -/
def Money.toString (m : Money) : String :=
  jsToFixed m.convertAmountToDecimal m.currency.exponent ++ " " ++ m.currency.code

/-- JavaScript `text.split(' ')`: split at every occurrence of the single
space character; adjacent separators produce empty fields. -/
def splitChars : List Char → List Char → List (List Char)
  | [], acc => [acc.reverse]
  | c :: cs, acc =>
    if c = ' ' then acc.reverse :: splitChars cs []
    else splitChars cs (c :: acc)

/-- The body of `Money.parse` after the destructuring
`const [amountStr, currencyStr] = text.split(' ')`. -/
def Money.parseCore (text : String) (amountStr : List Char)
    (currencyStr : Option String) : Except JSException Money :=
  match Currency.parse currencyStr with
  | .error e => .error e
  | .ok currency =>
    let amount := jmul (parseFloat amountStr) (.fin currency.basePow)
    if amount.isNaN then .error (.moneyParseException text)
    else Money.new (jtrunc amount) currency

/-- `Money.parse`: split on spaces, take the first token as the amount and
the second (possibly `undefined`) as the currency code. -/
def Money.parse (text : String) : Except JSException Money :=
  Money.parseCore text ((splitChars text.toList []).headD [])
    (((splitChars text.toList []).get? 1).map String.mk)

/-- The amount token `Money.parse` extracts from its input. -/
def amountToken (text : String) : List Char :=
  (splitChars text.toList []).headD []

/-- The currency token `Money.parse` extracts from its input
(`none` when the input contains no space). -/
def currencyToken (text : String) : Option String :=
  ((splitChars text.toList []).get? 1).map String.mk

/-- The Euro entry of the table, as a `Currency` value. -/
def eur : Currency := ⟨"EUR", 2, 10⟩

/-- The US-dollar entry of the table, as a `Currency` value. -/
def usd : Currency := ⟨"USD", 2, 10⟩

/-! ### Bridging lemmas

The definitions above are phrased for shallow evaluation; these lemmas
restate them in the standard vocabulary used by the proofs. -/

set_option maxRecDepth 2000

theorem pow2_eq (k : ℕ) : pow2 k = 2 ^ k := Nat.one_shiftLeft k

theorem natQ_eq (n : ℕ) : natQ n = (n : ℚ) := by
  refine Rat.ext ?_ ?_ <;> simp [natQ, Rat.ofInt]

theorem ofIntQ_eq (a : ℤ) : Rat.ofInt a = (a : ℚ) := by
  refine Rat.ext ?_ ?_ <;> simp [Rat.ofInt]

theorem blt_iff (a b : ℚ) : Rat.blt a b = true ↔ a < b := Iff.rfl

theorem blt_false_iff (a b : ℚ) : Rat.blt a b = false ↔ b ≤ a := Iff.rfl

/-! ### Splitting lemmas -/

theorem splitChars_no_space (cs : List Char) (acc : List Char) (h : ' ' ∉ cs) :
    splitChars cs acc = [acc.reverse ++ cs] := by
  induction cs generalizing acc with
  | nil => simp [splitChars]
  | cons c cs ih =>
    have hc : ¬(c = ' ') := fun hh => h (hh ▸ List.mem_cons_self c cs)
    have hcs : ' ' ∉ cs := fun hh => h (List.mem_cons_of_mem c hh)
    simp only [splitChars, if_neg hc]
    rw [ih (c :: acc) hcs]
    simp

theorem splitChars_space (t1 rest acc : List Char) (h : ' ' ∉ t1) :
    splitChars (t1 ++ ' ' :: rest) acc = (acc.reverse ++ t1) :: splitChars rest [] := by
  induction t1 generalizing acc with
  | nil => simp [splitChars]
  | cons c t1 ih =>
    have hc : ¬(c = ' ') := fun hh => h (hh ▸ List.mem_cons_self c t1)
    have ht1 : ' ' ∉ t1 := fun hh => h (List.mem_cons_of_mem c hh)
    simp only [List.cons_append, splitChars, if_neg hc, List.append_eq]
    rw [ih (c :: acc) ht1]
    simp

/-! ### Constructor lemmas -/

theorem moneyNew_ok (q : ℚ) (c : Currency)
    (h1 : minSafeInteger ≤ q) (h2 : q ≤ maxSafeInteger) :
    Money.new (.fin q) c = .ok ⟨.fin q, c⟩ := by
  unfold Money.new
  have hg : jgt (.fin q) (.fin maxSafeInteger) = false := (blt_false_iff _ _).mpr h2
  have hl : jlt (.fin q) (.fin minSafeInteger) = false := (blt_false_iff _ _).mpr h1
  rw [hg, hl]
  rfl

theorem moneyNew_error_hi (q : ℚ) (c : Currency) (h : maxSafeInteger < q) :
    Money.new (.fin q) c = .error (.moneyException "Unsafe integer amount!") := by
  unfold Money.new
  have hg : jgt (.fin q) (.fin maxSafeInteger) = true := (blt_iff _ _).mpr h
  rw [hg]
  rfl

theorem moneyNew_error_lo (q : ℚ) (c : Currency) (h : q < minSafeInteger) :
    Money.new (.fin q) c = .error (.moneyException "Unsafe integer amount!") := by
  unfold Money.new
  have hl : jlt (.fin q) (.fin minSafeInteger) = true := (blt_iff _ _).mpr h
  rw [hl]
  cases jgt (.fin q) (.fin maxSafeInteger) <;> rfl

/-! ### Claims about `Money.parse` tokenisation -/

/-- C10: for every input text containing no space at all, `Money.parse`
fails with `InvalidCurrencyException` (rendering the missing token as
"undefined") — the missing second token makes the currency lookup fail
before the amount is ever examined — and never with
`MoneyParseException`. -/
theorem parse_no_space_invalid_currency (text : String) (h : ' ' ∉ text.toList) :
    Money.parse text = .error (.invalidCurrencyException "undefined") := by
  unfold Money.parse
  rw [splitChars_no_space _ _ h]
  rfl

theorem parse_no_space_invalid_currency_witness :
    Money.parse "10.34" = .error (.invalidCurrencyException "undefined") ∧
    Money.parse "garbage" = .error (.invalidCurrencyException "undefined") :=
  ⟨parse_no_space_invalid_currency "10.34" (by decide),
   parse_no_space_invalid_currency "garbage" (by decide)⟩

/-- C6 (amended): `text.split(' ')` splits at every space, and the
destructuring takes the first two fields, so for an input of the form
`t1 ⬝ ' ' ⬝ t2 ⬝ ' ' ⬝ rest` the amount token is `t1`, the currency token
is `t2`, and everything after the second space is ignored; in particular
"10.34 EUR extra" parses successfully instead of failing. -/
theorem parse_extra_tokens_spec (text : String) (t1 t2 rest : List Char)
    (h : text.toList = t1 ++ ' ' :: (t2 ++ ' ' :: rest))
    (h1 : ' ' ∉ t1) (h2 : ' ' ∉ t2) :
    Money.parse text = Money.parseCore text t1 (some (String.mk t2)) := by
  unfold Money.parse
  rw [h, splitChars_space _ _ _ h1, splitChars_space _ _ _ h2]
  simp

theorem parse_extra_tokens_spec_witness :
    Money.parse "10.34 EUR extra" =
      Money.parseCore "10.34 EUR extra" "10.34".toList (some (String.mk "EUR".toList)) :=
  parse_extra_tokens_spec "10.34 EUR extra" "10.34".toList "EUR".toList
    "extra".toList (by decide) (by decide) (by decide)

/-- C6 (counterexample): the claim says inputs with extra tokens fail the
currency lookup; in fact "10.34 EUR extra" parses successfully. -/
theorem parse_extra_tokens_counterexample :
    Money.parse "10.34 EUR extra" = .ok ⟨.fin 1034, eur⟩ := by
  with_unfolding_all decide

/-! ### Claims about the constructor -/

/-- C2: the `Money` constructor rejects a finite amount with
`MoneyException "Unsafe integer amount!"` exactly when the amount lies
outside the inclusive envelope `[-(2^53 - 1), 2^53 - 1]`, and otherwise
stores both fields unchanged. -/
theorem constructor_range_spec (q : ℚ) (c : Currency) :
    (Money.new (.fin q) c = .error (.moneyException "Unsafe integer amount!") ↔
      (maxSafeInteger < q ∨ q < minSafeInteger)) ∧
    (minSafeInteger ≤ q → q ≤ maxSafeInteger →
      Money.new (.fin q) c = .ok ⟨.fin q, c⟩) := by
  refine ⟨⟨?_, ?_⟩, moneyNew_ok q c⟩
  · intro h
    by_contra hn
    push_neg at hn
    rw [moneyNew_ok q c hn.2 hn.1] at h
    exact absurd h (by simp)
  · intro h
    rcases h with h | h
    · exact moneyNew_error_hi q c h
    · exact moneyNew_error_lo q c h

/-- C2 (witness): the boundary behaviour at `±(2^53 - 1)` and `±2^53`. -/
theorem constructor_range_spec_witness :
    Money.new (.fin 9007199254740991) eur = .ok ⟨.fin 9007199254740991, eur⟩ ∧
    Money.new (.fin (-9007199254740991)) eur = .ok ⟨.fin (-9007199254740991), eur⟩ ∧
    Money.new (.fin 9007199254740992) eur =
      .error (.moneyException "Unsafe integer amount!") ∧
    Money.new (.fin (-9007199254740992)) eur =
      .error (.moneyException "Unsafe integer amount!") :=
  ⟨(constructor_range_spec 9007199254740991 eur).2
      (by with_unfolding_all decide) (by with_unfolding_all decide),
   (constructor_range_spec (-9007199254740991) eur).2
      (by with_unfolding_all decide) (by with_unfolding_all decide),
   (constructor_range_spec 9007199254740992 eur).1.mpr
      (Or.inl (by with_unfolding_all decide)),
   (constructor_range_spec (-9007199254740992) eur).1.mpr
      (Or.inr (by with_unfolding_all decide))⟩

/-- C9: the constructor validates nothing but the range — any in-range
amount, integer or not, is accepted and stored unchanged. -/
theorem constructor_accepts_nonintegers (q : ℚ) (c : Currency)
    (h1 : minSafeInteger ≤ q) (h2 : q ≤ maxSafeInteger) :
    Money.new (.fin q) c = .ok ⟨.fin q, c⟩ :=
  moneyNew_ok q c h1 h2

/-- C9 (witness): `Money(10.5, EUR)` is accepted and stored unchanged. -/
theorem constructor_accepts_nonintegers_witness :
    Money.new (.fin (21 / 2)) eur = .ok ⟨.fin (21 / 2), eur⟩ :=
  constructor_accepts_nonintegers (21 / 2) eur
    (by with_unfolding_all decide) (by with_unfolding_all decide)

/-! ### Currency lookup -/

/-- C7: `Currency.parse` succeeds exactly on exact (case-sensitive) keys of
the metadata table, returning the matched entry unchanged (so the returned
code equals the looked-up code), and fails on any other string with
`InvalidCurrencyException` whose message carries the offending code. -/
theorem currency_parse_spec (code : String) :
    (∀ k e b, currenciesTable.find? (fun ent => ent.1 == code) = some (k, e, b) →
      Currency.parse (some code) = .ok ⟨k, e, b⟩ ∧ k = code) ∧
    (currenciesTable.find? (fun ent => ent.1 == code) = none →
      Currency.parse (some code) = .error (.invalidCurrencyException code)) ∧
    (∀ c, Currency.parse (some code) = .ok c → c.code = code) ∧
    (∀ err, Currency.parse (some code) = .error err →
      err = .invalidCurrencyException code ∧
      err.message = "Invalid currency: " ++ "'" ++ code ++ "'") := by
  refine ⟨?_, ?_, ?_, ?_⟩
  · intro k e b h
    constructor
    · simp only [Currency.parse, h]
    · have := List.find?_some h
      exact eq_of_beq (by simpa using this)
  · intro h
    simp only [Currency.parse, h]
  · intro c h
    rcases hfind : currenciesTable.find? (fun ent => ent.1 == code) with _ | ⟨k, e, b⟩
    · simp only [Currency.parse, hfind] at h
      simp at h
    · simp only [Currency.parse, hfind] at h
      have hc : c = ⟨k, e, b⟩ := (Except.ok.inj h).symm
      rw [hc]
      exact eq_of_beq (by simpa using List.find?_some hfind)
  · intro err h
    rcases hfind : currenciesTable.find? (fun ent => ent.1 == code) with _ | ⟨k, e, b⟩
    · simp only [Currency.parse, hfind] at h
      have he : err = .invalidCurrencyException code := (Except.error.inj h).symm
      exact ⟨he, by rw [he]; rfl⟩
    · simp only [Currency.parse, hfind] at h
      simp at h

/-- C7 (witness): "EUR" resolves to its table entry; the lowercase "eur"
and the absent "ABC" fail with the offending code in the error. -/
theorem currency_parse_spec_witness :
    Currency.parse (some "EUR") = .ok ⟨"EUR", 2, 10⟩ ∧
    Currency.parse (some "eur") = .error (.invalidCurrencyException "eur") ∧
    Currency.parse (some "ABC") = .error (.invalidCurrencyException "ABC") :=
  ⟨((currency_parse_spec "EUR").1 "EUR" 2 10 (by decide)).1,
   (currency_parse_spec "eur").2.1 (by decide),
   (currency_parse_spec "ABC").2.1 (by decide)⟩

/-! ### Comparisons -/

theorem hasSameCurrency_true_iff (a b : Money) :
    a.hasSameCurrency b = true ↔ a.currency.code = b.currency.code := by
  simp [Money.hasSameCurrency, Currency.equals]

theorem compareTo_same (a b : Money) (h : a.currency.code = b.currency.code) :
    a.compareTo b = .ok (jsub a.amount b.amount) := by
  unfold Money.compareTo
  rw [(hasSameCurrency_true_iff a b).mpr h]
  rfl

theorem compareTo_diff (a b : Money) (h : a.currency.code ≠ b.currency.code) :
    a.compareTo b = .error (.moneyException
      "Impossible to compare monetary values with different currencies.") := by
  unfold Money.compareTo
  have : a.hasSameCurrency b = false := by
    rw [← Bool.not_eq_true]
    exact fun hh => h ((hasSameCurrency_true_iff a b).mp hh)
  rw [this]
  rfl

theorem blt_trichotomy (r z : ℚ) :
    (Rat.blt z r).toNat + (Rat.blt r z).toNat + (decide (r = z)).toNat = 1 := by
  rcases lt_trichotomy r z with h | h | h
  · rw [(blt_iff r z).mpr h, (blt_false_iff z r).mpr h.le,
      decide_eq_false (ne_of_lt h)]
    rfl
  · subst h
    rw [(blt_false_iff r r).mpr le_rfl, decide_eq_true rfl]
    rfl
  · rw [(blt_iff z r).mpr h, (blt_false_iff r z).mpr h.le,
      decide_eq_false (ne_of_gt h)]
    rfl

theorem roundDblOv_trichotomy (x : ℚ) :
    (jgt (roundDblOv x) (.fin (Rat.ofInt 0))).toNat +
      (jlt (roundDblOv x) (.fin (Rat.ofInt 0))).toNat +
      (jeq (roundDblOv x) (.fin (Rat.ofInt 0))).toNat = 1 := by
  unfold roundDblOv
  by_cases h1 : Rat.blt (roundDbl x) twoPow1024 = false
  · rw [if_pos h1]
    rfl
  · rw [if_neg h1]
    by_cases h2 : Rat.blt (Rat.neg twoPow1024) (roundDbl x) = false
    · rw [if_pos h2]
      rfl
    · rw [if_neg h2]
      exact blt_trichotomy (roundDbl x) (Rat.ofInt 0)

/-- C8 (amended): for `Money` values with finite (non-`NaN`) amounts and
the same currency, `isGreaterThan`, `isLessThan` and `equals` return the
sign tests of the single `compareTo` result and exactly one of them is
true; when the currencies differ all three fail with the `compareTo`
error.  (With a `NaN` amount, which the constructor accepts, all three
return false — see the counterexample.) -/
theorem comparison_trichotomy (a b : Money) (p q : ℚ)
    (hp : a.amount = .fin p) (hq : b.amount = .fin q) :
    (a.currency.code = b.currency.code →
      ∃ n, a.compareTo b = .ok n ∧
        a.isGreaterThan b = .ok (jgt n (.fin (Rat.ofInt 0))) ∧
        a.isLessThan b = .ok (jlt n (.fin (Rat.ofInt 0))) ∧
        a.equals b = .ok (jeq n (.fin (Rat.ofInt 0))) ∧
        (jgt n (.fin (Rat.ofInt 0))).toNat + (jlt n (.fin (Rat.ofInt 0))).toNat +
          (jeq n (.fin (Rat.ofInt 0))).toNat = 1) ∧
    (a.currency.code ≠ b.currency.code →
      a.isGreaterThan b = .error (.moneyException
        "Impossible to compare monetary values with different currencies.") ∧
      a.isLessThan b = .error (.moneyException
        "Impossible to compare monetary values with different currencies.") ∧
      a.equals b = .error (.moneyException
        "Impossible to compare monetary values with different currencies.")) := by
  constructor
  · intro h
    refine ⟨jsub a.amount b.amount, compareTo_same a b h, ?_, ?_, ?_, ?_⟩
    · unfold Money.isGreaterThan
      rw [compareTo_same a b h]
      rfl
    · unfold Money.isLessThan
      rw [compareTo_same a b h]
      rfl
    · unfold Money.equals
      rw [compareTo_same a b h]
      rfl
    · rw [hp, hq]
      exact roundDblOv_trichotomy (Rat.sub p q)
  · intro h
    refine ⟨?_, ?_, ?_⟩ <;>
      first
      | (unfold Money.isGreaterThan; rw [compareTo_diff a b h]; rfl)
      | (unfold Money.isLessThan; rw [compareTo_diff a b h]; rfl)
      | (unfold Money.equals; rw [compareTo_diff a b h]; rfl)

/-- C8 (counterexample): the constructor accepts a `NaN` amount, and for
such a `Money` none of the three comparisons returns true, so they are not
exhaustive on all constructible values. -/
theorem comparison_trichotomy_counterexample :
    Money.new .nan eur = .ok ⟨.nan, eur⟩ ∧
    Money.isGreaterThan ⟨.nan, eur⟩ ⟨.fin 0, eur⟩ = .ok false ∧
    Money.isLessThan ⟨.nan, eur⟩ ⟨.fin 0, eur⟩ = .ok false ∧
    Money.equals ⟨.nan, eur⟩ ⟨.fin 0, eur⟩ = .ok false := by
  with_unfolding_all decide

/-- C8 (witness): a concrete same-currency comparison where exactly
`isGreaterThan` holds, and a cross-currency comparison that fails. -/
theorem comparison_trichotomy_witness :
    Money.isGreaterThan ⟨.fin 3, eur⟩ ⟨.fin 2, eur⟩ = .ok true ∧
    Money.isLessThan ⟨.fin 3, eur⟩ ⟨.fin 2, eur⟩ = .ok false ∧
    Money.equals ⟨.fin 3, eur⟩ ⟨.fin 2, eur⟩ = .ok false ∧
    Money.isGreaterThan ⟨.fin 3, eur⟩ ⟨.fin 2, usd⟩ = .error (.moneyException
      "Impossible to compare monetary values with different currencies.") := by
  obtain ⟨n, hc, hg, hl, he, _⟩ :=
    (comparison_trichotomy ⟨.fin 3, eur⟩ ⟨.fin 2, eur⟩ 3 2 rfl rfl).1 rfl
  have h2 : Money.compareTo ⟨.fin 3, eur⟩ ⟨.fin 2, eur⟩ = .ok (.fin 1) := by
    with_unfolding_all decide
  rw [h2] at hc
  have hn : JSNum.fin 1 = n := Except.ok.inj hc
  subst hn
  refine ⟨?_, ?_, ?_,
    ((comparison_trichotomy ⟨.fin 3, eur⟩ ⟨.fin 2, usd⟩ 3 2 rfl rfl).2
      (by decide)).1⟩
  · rw [hg]
    have : jgt (.fin 1) (.fin (Rat.ofInt 0)) = true := by with_unfolding_all decide
    rw [this]
  · rw [hl]
    have : jlt (.fin 1) (.fin (Rat.ofInt 0)) = false := by with_unfolding_all decide
    rw [this]
  · rw [he]
    have : jeq (.fin 1) (.fin (Rat.ofInt 0)) = false := by with_unfolding_all decide
    rw [this]

/-! ### Parse error precedence -/

theorem roundDblOv_not_nan (x : ℚ) : (roundDblOv x).isNaN = false := by
  unfold roundDblOv
  by_cases h1 : Rat.blt (roundDbl x) twoPow1024 = false
  · rw [if_pos h1]
    rfl
  · rw [if_neg h1]
    by_cases h2 : Rat.blt (Rat.neg twoPow1024) (roundDbl x) = false
    · rw [if_pos h2]
      rfl
    · rw [if_neg h2]
      rfl

theorem jmul_fin_isNaN (x : JSNum) (p : ℚ) (hp : ¬(p.num = 0)) :
    (jmul x (.fin p)).isNaN = x.isNaN := by
  cases x with
  | nan => rfl
  | inf s =>
    show (if p.num = 0 then JSNum.nan else .inf (s == decide (0 < p.num))).isNaN = false
    rw [if_neg hp]
    rfl
  | fin a => exact roundDblOv_not_nan _

theorem basePow_num_ne (c : Currency) (h : c.base = 10) : ¬(c.basePow.num = 0) := by
  intro hh
  have hnum : c.basePow.num = Int.ofNat (c.base ^ c.exponent) := rfl
  rw [hnum, h] at hh
  exact absurd (Int.ofNat_eq_zero.mp hh) (pow_ne_zero _ (by norm_num))

theorem currency_parse_base (tok : Option String) (c : Currency)
    (h : Currency.parse tok = .ok c) : c.base = 10 := by
  match tok with
  | none => simp [Currency.parse] at h
  | some code =>
    rcases hfind : currenciesTable.find? (fun ent => ent.1 == code) with _ | ⟨k, e, b⟩
    · simp only [Currency.parse, hfind] at h
      simp at h
    · simp only [Currency.parse, hfind] at h
      have hc : c = ⟨k, e, b⟩ := (Except.ok.inj h).symm
      have hmem := List.mem_of_find?_eq_some hfind
      have hall : ∀ ent ∈ currenciesTable, ent.2.2 = 10 := by decide
      rw [hc]
      exact hall _ hmem

theorem moneyNew_cases (x : JSNum) (c : Currency) :
    Money.new x c = .ok ⟨x, c⟩ ∨
    Money.new x c = .error (.moneyException "Unsafe integer amount!") := by
  unfold Money.new
  rcases hb : (jgt x (.fin maxSafeInteger) || jlt x (.fin minSafeInteger)) with _ | _
  · left
    rfl
  · right
    rfl

theorem moneyNew_inf (s : Bool) (c : Currency) :
    Money.new (.inf s) c = .error (.moneyException "Unsafe integer amount!") := by
  cases s <;> rfl

/-- C5: in `Money.parse` the currency token is resolved first: a failed
lookup propagates its `InvalidCurrencyException` unchanged no matter what
the amount token is; when the lookup succeeds, `MoneyParseException`
(carrying the original text) is raised exactly when the amount token does
not parse as a number; and an amount that parses but whose minor-unit
conversion leaves the safe-integer envelope (or overflows to an infinity)
fails with the constructor's `MoneyException`, not `MoneyParseException`. -/
theorem parse_error_precedence (text : String) :
    (∀ e, Currency.parse (currencyToken text) = .error e →
      Money.parse text = .error e) ∧
    (∀ c, Currency.parse (currencyToken text) = .ok c →
      ((Money.parse text = .error (.moneyParseException text)) ↔
        (parseFloat (amountToken text)).isNaN = true) ∧
      (∀ t, jtrunc (jmul (parseFloat (amountToken text)) (.fin c.basePow)) = .fin t →
        (maxSafeInteger < t ∨ t < minSafeInteger) →
        Money.parse text = .error (.moneyException "Unsafe integer amount!")) ∧
      (∀ s, jtrunc (jmul (parseFloat (amountToken text)) (.fin c.basePow)) = .inf s →
        Money.parse text = .error (.moneyException "Unsafe integer amount!"))) := by
  have hparse : Money.parse text =
      Money.parseCore text (amountToken text) (currencyToken text) := rfl
  constructor
  · intro e he
    rw [hparse]
    unfold Money.parseCore
    rw [he]
  · intro c hc
    have hbase := currency_parse_base _ _ hc
    have hnum := basePow_num_ne c hbase
    have hNaN := jmul_fin_isNaN (parseFloat (amountToken text)) c.basePow hnum
    rw [hparse]
    unfold Money.parseCore
    rw [hc]
    dsimp only
    refine ⟨⟨?_, ?_⟩, ?_, ?_⟩
    · intro h
      by_cases hn : (parseFloat (amountToken text)).isNaN = true
      · exact hn
      · exfalso
        have hfalse : (jmul (parseFloat (amountToken text)) (.fin c.basePow)).isNaN
            = false := by
          rw [hNaN]
          exact Bool.eq_false_iff.mpr hn
        rw [hfalse] at h
        simp only [Bool.false_eq_true, if_false] at h
        rcases moneyNew_cases
            (jtrunc (jmul (parseFloat (amountToken text)) (.fin c.basePow))) c with
          hcase | hcase <;> rw [hcase] at h <;> simp at h
    · intro h
      have htrue : (jmul (parseFloat (amountToken text)) (.fin c.basePow)).isNaN
          = true := by rw [hNaN, h]
      rw [htrue]
      rfl
    · intro t ht hrange
      have hno : (jmul (parseFloat (amountToken text)) (.fin c.basePow)).isNaN
          = false := by
        rcases hA : jmul (parseFloat (amountToken text)) (.fin c.basePow) with
          _ | s | r
        · rw [hA] at ht
          exact absurd ht (by simp [jtrunc])
        · rfl
        · rfl
      rw [hno]
      simp only [Bool.false_eq_true, if_false]
      rw [ht]
      rcases hrange with h | h
      · exact moneyNew_error_hi t c h
      · exact moneyNew_error_lo t c h
    · intro s hs
      have hno : (jmul (parseFloat (amountToken text)) (.fin c.basePow)).isNaN
          = false := by
        rcases hA : jmul (parseFloat (amountToken text)) (.fin c.basePow) with
          _ | s' | r
        · rw [hA] at hs
          exact absurd hs (by simp [jtrunc])
        · rfl
        · rfl
      rw [hno]
      simp only [Bool.false_eq_true, if_false]
      rw [hs]
      exact moneyNew_inf s c

/-- Witness for C5: a bad currency token propagates `InvalidCurrencyException`
("10.76 ABC"); a bad amount token with a good currency raises
`MoneyParseException` ("Aas EUR"); a numeric amount that leaves the
safe-integer envelope raises the constructor's `MoneyException`
("9007199254740992 EUR"). -/
theorem parse_error_precedence_witness :
    Money.parse "10.76 ABC" = .error (.invalidCurrencyException "ABC") ∧
    Money.parse "Aas EUR" = .error (.moneyParseException "Aas EUR") ∧
    Money.parse "9007199254740992 EUR" =
      .error (.moneyException "Unsafe integer amount!") := by
  refine ⟨?_, ?_, ?_⟩
  · exact (parse_error_precedence "10.76 ABC").1 _ (by with_unfolding_all decide)
  · exact (((parse_error_precedence "Aas EUR").2 eur
      (by with_unfolding_all decide)).1).mpr (by with_unfolding_all decide)
  · exact ((parse_error_precedence "9007199254740992 EUR").2 eur
      (by with_unfolding_all decide)).2.1 (Rat.ofInt 900719925474099200)
      (by with_unfolding_all decide) (Or.inl (by with_unfolding_all decide))

/-! ### Rounding analysis: bit lengths, binary exponent, grid rounding -/

theorem bitlen_correct : ∀ fuel n, 0 < n → n < 2 ^ fuel →
    2 ^ (bitlen fuel n - 1) ≤ n ∧ n < 2 ^ bitlen fuel n := by
  intro fuel
  induction fuel with
  | zero => intro n h1 h2; omega
  | succ f ih =>
    intro n h1 h2
    rw [bitlen, if_neg (Nat.pos_iff_ne_zero.mp h1)]
    by_cases hn : n < 2
    · interval_cases n
      · have h0 : bitlen f 0 = 0 := by cases f <;> rfl
        simp [h0]
    · have hd : 0 < n / 2 := Nat.div_pos (by omega) (by omega)
      have hd2 : n / 2 < 2 ^ f := by
        rw [Nat.div_lt_iff_lt_mul (by omega)]
        calc n < 2 ^ (f + 1) := h2
        _ = 2 ^ f * 2 := by ring
      obtain ⟨l, u⟩ := ih (n / 2) hd hd2
      have hb : 1 ≤ bitlen f (n / 2) := by
        by_contra hc
        have : bitlen f (n / 2) = 0 := by omega
        rw [this] at u
        omega
      constructor
      · have : 2 ^ (bitlen f (n / 2) + 1 - 1) = 2 ^ (bitlen f (n / 2) - 1) * 2 := by
          rw [Nat.add_sub_cancel]
          rw [← pow_succ]
          congr 1
          omega
        rw [this]
        omega
      · have : 2 ^ (bitlen f (n / 2) + 1) = 2 ^ bitlen f (n / 2) * 2 := by
          rw [pow_succ]
        rw [this]
        omega

theorem nbits_correct (n : ℕ) (h : 0 < n) :
    2 ^ (nbits n - 1) ≤ n ∧ n < 2 ^ nbits n :=
  bitlen_correct n n h (Nat.lt_two_pow n)

theorem nbits_pos (n : ℕ) (h : 0 < n) : 0 < nbits n := by
  by_contra hc
  have h0 : nbits n = 0 := by omega
  have := (nbits_correct n h).2
  rw [h0] at this
  omega
theorem qabs_eq (q : ℚ) : |q| = (q.num.natAbs : ℚ) / (q.den : ℚ) := by
  conv_lhs => rw [← Rat.num_div_den q]
  rw [abs_div]
  congr 1
  · rw [← Int.cast_abs, Int.cast_natAbs, Int.cast_abs]
  · exact abs_of_nonneg (by positivity)

theorem zpow_ofNat_q (k : ℕ) : (2:ℚ)^(k:ℤ) = ((2^k : ℕ) : ℚ) := by
  rw [zpow_natCast]
  push_cast
  ring

theorem zpow_le_div_iff_nat (n d : ℕ) (hd : 0 < d) (e : ℤ) :
    ((2:ℚ)^e ≤ (n:ℚ)/(d:ℚ)) ↔
      (if 0 ≤ e then 2 ^ e.toNat * d ≤ n else d ≤ n * 2 ^ (-e).toNat) := by
  have hdq : (0:ℚ) < (d:ℚ) := by exact_mod_cast hd
  rw [le_div_iff hdq]
  by_cases he : 0 ≤ e
  · rw [if_pos he]
    have h2 : (2:ℚ)^e = ((2^e.toNat : ℕ) : ℚ) := by
      rw [← zpow_ofNat_q, Int.toNat_of_nonneg he]
    rw [h2]
    rw [show ((2^e.toNat : ℕ) : ℚ) * (d:ℚ) = ((2^e.toNat * d : ℕ) : ℚ) by push_cast; ring]
    exact Nat.cast_le
  · rw [if_neg he]
    have hpos : (0:ℚ) < (2:ℚ)^(-e) := by positivity
    constructor
    · intro h
      have h2 := mul_le_mul_of_nonneg_right h (le_of_lt hpos)
      rw [mul_comm ((2:ℚ)^e) (d:ℚ), mul_assoc, ← zpow_add₀ (by norm_num : (2:ℚ) ≠ 0)] at h2
      simp only [add_neg_cancel, zpow_zero, mul_one] at h2
      have h3 : (2:ℚ)^(-e) = ((2^(-e).toNat : ℕ) : ℚ) := by
        rw [← zpow_ofNat_q, Int.toNat_of_nonneg (by omega)]
      rw [h3] at h2
      exact_mod_cast h2
    · intro h
      have h2 : ((d:ℚ)) ≤ (n:ℚ) * ((2^(-e).toNat : ℕ) : ℚ) := by exact_mod_cast h
      have h3 : ((2^(-e).toNat : ℕ) : ℚ) = (2:ℚ)^(-e) := by
        rw [← zpow_ofNat_q, Int.toNat_of_nonneg (by omega)]
      rw [h3] at h2
      have h4 := mul_le_mul_of_nonneg_right h2 (le_of_lt (by positivity : (0:ℚ) < (2:ℚ)^e))
      rw [mul_assoc, ← zpow_add₀ (by norm_num : (2:ℚ) ≠ 0)] at h4
      simp only [neg_add_cancel, zpow_zero, mul_one] at h4
      calc (2:ℚ)^e * (d:ℚ) = (d:ℚ) * (2:ℚ)^e := by ring
      _ ≤ (n:ℚ) := h4

theorem qlog2_spec (q : ℚ) (hq : q.num ≠ 0) :
    (2:ℚ) ^ qlog2 q ≤ |q| ∧ |q| < (2:ℚ) ^ (qlog2 q + 1) := by
  have hn : 0 < q.num.natAbs := Int.natAbs_pos.mpr hq
  have hd : 0 < q.den := q.pos
  set n := q.num.natAbs with hns
  set d := q.den with hds
  obtain ⟨ln, un⟩ := nbits_correct n hn
  obtain ⟨ld, ud⟩ := nbits_correct d hd
  have han : 0 < nbits n := nbits_pos n hn
  have had : 0 < nbits d := nbits_pos d hd
  have habs : |q| = (n:ℚ)/(d:ℚ) := qabs_eq q
  have hdq : (0:ℚ) < (d:ℚ) := by exact_mod_cast hd
  -- casts of the nbits brackets into ℚ with ℤ exponents
  have lnq : (2:ℚ)^((nbits n : ℤ) - 1) ≤ (n:ℚ) := by
    have : ((nbits n : ℤ) - 1) = ((nbits n - 1 : ℕ) : ℤ) := by omega
    rw [this, zpow_ofNat_q]
    exact_mod_cast ln
  have unq : (n:ℚ) < (2:ℚ)^((nbits n : ℤ)) := by
    rw [zpow_ofNat_q]
    exact_mod_cast un
  have ldq : (2:ℚ)^((nbits d : ℤ) - 1) ≤ (d:ℚ) := by
    have : ((nbits d : ℤ) - 1) = ((nbits d - 1 : ℕ) : ℤ) := by omega
    rw [this, zpow_ofNat_q]
    exact_mod_cast ld
  have udq : (d:ℚ) < (2:ℚ)^((nbits d : ℤ)) := by
    rw [zpow_ofNat_q]
    exact_mod_cast ud
  set e0 : ℤ := Int.ofNat (nbits n) - Int.ofNat (nbits d) with he0
  -- generic upper bound: |q| < 2 ^ (e0 + 1)
  have hupper : |q| < (2:ℚ)^(e0 + 1) := by
    rw [habs, div_lt_iff hdq]
    calc (n:ℚ) < (2:ℚ)^((nbits n : ℤ)) := unq
    _ = (2:ℚ)^(e0 + 1) * (2:ℚ)^((nbits d : ℤ) - 1) := by
        rw [← zpow_add₀ (by norm_num : (2:ℚ) ≠ 0)]
        congr 1
        simp only [he0, Int.ofNat_eq_coe]
        omega
    _ ≤ (2:ℚ)^(e0 + 1) * (d:ℚ) := by
        apply mul_le_mul_of_nonneg_left ldq (by positivity)
  -- generic lower bound: 2 ^ (e0 - 1) < |q|
  have hlower : (2:ℚ)^(e0 - 1) < |q| := by
    rw [habs, lt_div_iff hdq]
    calc (2:ℚ)^(e0-1) * (d:ℚ) < (2:ℚ)^(e0-1) * (2:ℚ)^((nbits d : ℤ)) := by
          apply mul_lt_mul_of_pos_left udq (by positivity)
    _ = (2:ℚ)^((nbits n : ℤ) - 1) := by
        rw [← zpow_add₀ (by norm_num : (2:ℚ) ≠ 0)]
        congr 1
        simp only [he0, Int.ofNat_eq_coe]
        omega
    _ ≤ (n:ℚ) := lnq
  -- the branch condition decides between e0 and e0 - 1
  have hcond : ((2:ℚ)^e0 ≤ |q|) ↔
      (if 0 ≤ e0 then pow2 e0.toNat * d ≤ n else d ≤ n * pow2 (-e0).toNat) := by
    rw [habs, zpow_le_div_iff_nat n d hd e0, pow2_eq, pow2_eq]
  have step : ∀ E : ℤ, qlog2 q = E → (E = e0 ∧ (2:ℚ)^e0 ≤ |q|) ∨
      (E = e0 - 1 ∧ ¬ (2:ℚ)^e0 ≤ |q|) →
      (2:ℚ) ^ qlog2 q ≤ |q| ∧ |q| < (2:ℚ) ^ (qlog2 q + 1) := by
    intro E hE hcase
    rw [hE]
    rcases hcase with ⟨he, hge⟩ | ⟨he, hlt⟩
    · rw [he]
      exact ⟨hge, hupper⟩
    · rw [he]
      constructor
      · exact le_of_lt hlower
      · rw [sub_add_cancel]
        exact lt_of_not_le hlt
  by_cases h0 : 0 ≤ e0
  · by_cases hc : pow2 e0.toNat * d ≤ n
    · refine step e0 ?_ (Or.inl ⟨rfl, ?_⟩)
      · simp only [qlog2]
        rw [if_pos h0, if_pos hc]
      · apply hcond.mpr
        rw [if_pos h0]
        exact hc
    · refine step (e0 - 1) ?_ (Or.inr ⟨rfl, ?_⟩)
      · simp only [qlog2]
        rw [if_pos h0, if_neg hc]
      · intro hcon
        apply hc
        have := hcond.mp hcon
        rw [if_pos h0] at this
        exact this
  · by_cases hc : d ≤ n * pow2 (-e0).toNat
    · refine step e0 ?_ (Or.inl ⟨rfl, ?_⟩)
      · simp only [qlog2]
        rw [if_neg h0, if_pos hc]
      · apply hcond.mpr
        rw [if_neg h0]
        exact hc
    · refine step (e0 - 1) ?_ (Or.inr ⟨rfl, ?_⟩)
      · simp only [qlog2]
        rw [if_neg h0, if_neg hc]
      · intro hcon
        apply hc
        have := hcond.mp hcon
        rw [if_neg h0] at this
        exact this

theorem roundQ_exact (a : ℤ) (b : ℕ) (hb : 0 < b) (hd : (b:ℤ) ∣ a) :
    ((roundQ a b : ℤ) : ℚ) = (a:ℚ) / (b:ℚ) := by
  have hbz : ((b:ℕ):ℤ) ≠ 0 := by exact_mod_cast Nat.pos_iff_ne_zero.mp hb
  have hr : Int.emod a (Int.ofNat b) = 0 := Int.emod_eq_zero_of_dvd hd
  have hcond : 2 * Int.emod a (Int.ofNat b) < Int.ofNat b := by
    rw [hr]
    simpa using hb
  rw [roundQ]
  rw [if_pos hcond]
  have hmul : Int.ediv a (Int.ofNat b) * (b:ℤ) = a := Int.ediv_mul_cancel hd
  have hbq : ((b:ℕ):ℚ) ≠ 0 := by exact_mod_cast Nat.pos_iff_ne_zero.mp hb
  rw [eq_div_iff hbq]
  exact_mod_cast hmul

theorem roundQ_err (a : ℤ) (b : ℕ) (hb : 0 < b) :
    |((roundQ a b : ℤ) : ℚ) - (a:ℚ) / (b:ℚ)| ≤ 1 / 2 := by
  have hbz : (0:ℤ) < (b:ℤ) := by exact_mod_cast hb
  have hbq : (0:ℚ) < (b:ℚ) := by exact_mod_cast hb
  have hdecomp : (b:ℤ) * Int.ediv a (Int.ofNat b) + Int.emod a (Int.ofNat b) = a :=
    Int.ediv_add_emod a (Int.ofNat b)
  have hr0 : 0 ≤ Int.emod a (Int.ofNat b) := Int.emod_nonneg a (by simpa using hbz.ne')
  have hrb : Int.emod a (Int.ofNat b) < (b:ℤ) := Int.emod_lt_of_pos a hbz
  set n := Int.ediv a (Int.ofNat b) with hn
  set r := Int.emod a (Int.ofNat b) with hrs
  have hval : (a:ℚ) / (b:ℚ) = (n:ℚ) + (r:ℚ) / (b:ℚ) := by
    have hcast : (b:ℚ) * (n:ℚ) + (r:ℚ) = (a:ℚ) := by exact_mod_cast hdecomp
    field_simp
    linarith
  have hrq0 : (0:ℚ) ≤ (r:ℚ) := by exact_mod_cast hr0
  have hrqb : (r:ℚ) < (b:ℚ) := by exact_mod_cast hrb
  have hge0 : (0:ℚ) ≤ (r:ℚ) / (b:ℚ) := by positivity
  have hub1 : (r:ℚ) / (b:ℚ) < 1 := by
    rw [div_lt_one hbq]
    exact hrqb
  rw [roundQ]
  by_cases h1 : 2 * r < Int.ofNat b
  · rw [if_pos h1]
    have h1q : 2 * (r:ℚ) < (b:ℚ) := by
      have h1z : 2 * r < (b:ℤ) := h1
      exact_mod_cast h1z
    have hle : (r:ℚ) / (b:ℚ) ≤ 1/2 := by
      rw [div_le_iff hbq]
      linarith
    rw [hval, abs_le]
    constructor
    · linarith
    · linarith
  · rw [if_neg h1]
    have h1q : (b:ℚ) ≤ 2 * (r:ℚ) := by
      have h1z : (b:ℤ) ≤ 2 * r := by
        simp only [Int.ofNat_eq_coe] at h1
        omega
      exact_mod_cast h1z
    have hlb : 1/2 ≤ (r:ℚ) / (b:ℚ) := by
      rw [le_div_iff hbq]
      linarith
    have key : |((n + 1 : ℤ) : ℚ) - (a:ℚ)/(b:ℚ)| ≤ 1/2 := by
      rw [hval, abs_le]
      constructor
      · push_cast
        linarith
      · push_cast
        linarith
    by_cases h2 : Int.ofNat b < 2 * r
    · rw [if_pos h2]
      exact key
    · rw [if_neg h2]
      by_cases h3 : Int.emod n 2 = 0
      · rw [if_pos h3]
        have heq : 2 * r = (b:ℤ) := by
          have h2z : 2 * r ≤ (b:ℤ) := by
            simp only [Int.ofNat_eq_coe] at h2
            omega
          have h1z : (b:ℤ) ≤ 2 * r := by exact_mod_cast h1q
          omega
        have heq2 : (r:ℚ)/(b:ℚ) = 1/2 := by
          have heqq : 2 * (r:ℚ) = (b:ℚ) := by exact_mod_cast heq
          rw [div_eq_div_iff hbq.ne' (by norm_num : (2:ℚ) ≠ 0)]
          linarith
        rw [hval, heq2, abs_le]
        constructor
        · linarith
        · linarith
      · rw [if_neg h3]
        exact key

theorem halfUp_eq (y : ℚ) : halfUp y = ⌊y + 1/2⌋ := by
  have hd : (0:ℚ) < (y.den : ℚ) := by exact_mod_cast y.pos
  have hval : y + 1/2 = ((2 * y.num + y.den : ℤ) : ℚ) / ((2 * y.den : ℕ) : ℚ) := by
    conv_lhs => rw [← Rat.num_div_den y]
    push_cast
    field_simp
    ring
  rw [hval, Rat.floor_intCast_div_natCast, halfUp]
  show (2 * y.num + Int.ofNat y.den) / (2 * Int.ofNat y.den)
      = (2 * y.num + (y.den:ℤ)) / ((2 * y.den : ℕ) : ℤ)
  simp only [Int.ofNat_eq_coe]
  push_cast
  rfl

theorem halfUp_near (y : ℚ) (a : ℤ) (h : |y - (a:ℚ)| < 1/2) : halfUp y = a := by
  rw [halfUp_eq]
  rw [abs_lt] at h
  apply Int.floor_eq_iff.mpr
  constructor
  · linarith [h.1]
  · push_cast
    linarith [h.2]
theorem zpow_toNat_q (e : ℤ) (he : 0 ≤ e) :
    ((2 ^ e.toNat : ℕ) : ℚ) = (2:ℚ) ^ e := by
  conv_rhs => rw [← Int.toNat_of_nonneg he]
  rw [zpow_ofNat_q]

theorem roundDbl_err (q : ℚ) : |roundDbl q - q| ≤ (2:ℚ) ^ (dgrid q - 1) := by
  by_cases hq : q.num = 0
  · rw [roundDbl, if_pos hq, ofIntQ_eq]
    rw [Rat.num_eq_zero.mp hq]
    simp only [Int.cast_zero, sub_zero, abs_zero]
    positivity
  · rw [roundDbl, if_neg hq]
    have hden : 0 < q.den := q.pos
    by_cases hg : 0 ≤ dgrid q
    · rw [if_pos hg]
      set k := (dgrid q).toNat with hk
      have hgk : dgrid q = (k : ℤ) := by omega
      have hB : 0 < q.den * pow2 k := by
        rw [pow2_eq]
        positivity
      have herr := roundQ_err q.num (q.den * pow2 k) hB
      have hBq : ((q.den * pow2 k : ℕ) : ℚ) = (q.den : ℚ) * (2:ℚ)^(k:ℕ) := by
        rw [pow2_eq]
        push_cast
        ring
      have hquot : (q.num : ℚ) / ((q.den * pow2 k : ℕ) : ℚ) = q / (2:ℚ)^(k:ℕ) := by
        rw [hBq, ← div_div, Rat.num_div_den]
      rw [hquot] at herr
      rw [ofIntQ_eq]
      have hpk : (0:ℚ) < (2:ℚ)^(k:ℕ) := by positivity
      have hcast : ((roundQ q.num (q.den * pow2 k) * Int.ofNat (pow2 k) : ℤ) : ℚ)
          = ((roundQ q.num (q.den * pow2 k) : ℤ) : ℚ) * (2:ℚ)^(k:ℕ) := by
        simp only [Int.ofNat_eq_coe, pow2_eq]
        push_cast
        ring
      rw [hcast]
      have key : ((roundQ q.num (q.den * pow2 k) : ℤ) : ℚ) * (2:ℚ)^(k:ℕ) - q
          = (((roundQ q.num (q.den * pow2 k) : ℤ) : ℚ) - q / (2:ℚ)^(k:ℕ)) * (2:ℚ)^(k:ℕ) := by
        field_simp
      rw [key, abs_mul, abs_of_pos hpk, hgk]
      calc |((roundQ q.num (q.den * pow2 k) : ℤ) : ℚ) - q / (2:ℚ)^(k:ℕ)| * (2:ℚ)^(k:ℕ)
          ≤ (1/2) * (2:ℚ)^(k:ℕ) := by
            apply mul_le_mul_of_nonneg_right herr (le_of_lt hpk)
      _ = (2:ℚ)^((k:ℤ) - 1) := by
            rw [zpow_sub₀ (by norm_num : (2:ℚ) ≠ 0)]
            rw [zpow_natCast]
            ring
    · rw [if_neg hg]
      set m := (-dgrid q).toNat with hm
      have hgm : dgrid q = -(m : ℤ) := by omega
      have herr := roundQ_err (q.num * Int.ofNat (pow2 m)) q.den hden
      have hpm : (0:ℚ) < (2:ℚ)^(m:ℕ) := by positivity
      have hquot : ((q.num * Int.ofNat (pow2 m) : ℤ) : ℚ) / (q.den : ℚ)
          = q * (2:ℚ)^(m:ℕ) := by
        simp only [Int.ofNat_eq_coe, pow2_eq]
        push_cast
        rw [mul_comm (q.num : ℚ) _, mul_div_assoc, Rat.num_div_den, mul_comm]
      rw [hquot] at herr
      rw [Rat.mkRat_eq_div]
      have key : ((roundQ (q.num * Int.ofNat (pow2 m)) q.den : ℤ) : ℚ) / ((pow2 m : ℕ) : ℚ) - q
          = (((roundQ (q.num * Int.ofNat (pow2 m)) q.den : ℤ) : ℚ) - q * (2:ℚ)^(m:ℕ))
              / (2:ℚ)^(m:ℕ) := by
        rw [pow2_eq]
        push_cast
        field_simp
        ring
      rw [key, abs_div, abs_of_pos hpm, hgm]
      calc |((roundQ (q.num * Int.ofNat (pow2 m)) q.den : ℤ) : ℚ) - q * (2:ℚ)^(m:ℕ)| / (2:ℚ)^(m:ℕ)
          ≤ (1/2) / (2:ℚ)^(m:ℕ) := by
            apply div_le_div_of_nonneg_right herr hpm.le
      _ = (2:ℚ)^(-(m:ℤ) - 1) := by
            rw [zpow_sub₀ (by norm_num : (2:ℚ) ≠ 0), zpow_neg, zpow_natCast]
            ring

theorem roundDbl_exact (q : ℚ) (z : ℤ) (hz : q = (z:ℚ) * (2:ℚ) ^ dgrid q) :
    roundDbl q = q := by
  by_cases hq : q.num = 0
  · rw [roundDbl, if_pos hq, ofIntQ_eq, Int.cast_zero, eq_comm]
    exact Rat.num_eq_zero.mp hq
  · rw [roundDbl, if_neg hq]
    have hden : 0 < q.den := q.pos
    have hd0 : (q.den : ℚ) ≠ 0 := by positivity
    by_cases hg : 0 ≤ dgrid q
    · rw [if_pos hg]
      set k := (dgrid q).toNat with hk
      have hgk : dgrid q = (k : ℤ) := by omega
      have hp0 : ((2:ℚ)^(k:ℕ)) ≠ 0 := by positivity
      have hB : 0 < q.den * pow2 k := by
        rw [pow2_eq]
        positivity
      have hBq : ((q.den * pow2 k : ℕ) : ℚ) = (q.den : ℚ) * (2:ℚ)^(k:ℕ) := by
        rw [pow2_eq]
        push_cast
        ring
      have hnum : (q.num : ℚ) = (z:ℚ) * (2:ℚ)^(k:ℕ) * (q.den : ℚ) := by
        have h1 : (q.num : ℚ) / (q.den : ℚ) = (z:ℚ) * (2:ℚ)^(k:ℕ) := by
          rw [Rat.num_div_den, hz, hgk, zpow_natCast]
        field_simp at h1
        linarith [h1]
      have hnumz : q.num = z * ((2^k * q.den : ℕ) : ℤ) := by
        have : (q.num : ℚ) = ((z * ((2^k * q.den : ℕ) : ℤ) : ℤ) : ℚ) := by
          push_cast
          rw [hnum]
          ring
        exact_mod_cast this
      have hdvd : ((q.den * pow2 k : ℕ) : ℤ) ∣ q.num := by
        refine ⟨z, ?_⟩
        rw [hnumz, pow2_eq]
        push_cast
        ring
      have hex := roundQ_exact q.num (q.den * pow2 k) hB hdvd
      rw [ofIntQ_eq]
      have hcast : ((roundQ q.num (q.den * pow2 k) * Int.ofNat (pow2 k) : ℤ) : ℚ)
          = ((roundQ q.num (q.den * pow2 k) : ℤ) : ℚ) * (2:ℚ)^(k:ℕ) := by
        simp only [Int.ofNat_eq_coe, pow2_eq]
        push_cast
        ring
      have step1 : (q.num:ℚ) / ((q.den:ℚ) * (2:ℚ)^(k:ℕ)) * (2:ℚ)^(k:ℕ)
          = (q.num:ℚ) / (q.den:ℚ) := by
        field_simp
        ring
      rw [hcast, hex, hBq, step1, Rat.num_div_den]
    · rw [if_neg hg]
      set m := (-dgrid q).toNat with hm
      have hgm : dgrid q = -(m : ℤ) := by omega
      have hpm0 : ((2:ℚ)^(m:ℕ)) ≠ 0 := by positivity
      have h1 : (q.num:ℚ) * (2:ℚ)^(m:ℕ) = (z:ℚ) * (q.den:ℚ) := by
        have h0 : (q.num:ℚ)/(q.den:ℚ) = (z:ℚ) * (2:ℚ)^(dgrid q) := by
          rw [Rat.num_div_den]
          exact hz
        rw [hgm, zpow_neg, zpow_natCast] at h0
        field_simp at h0
        linarith [h0]
      have hz2 : q.num * ((2^m : ℕ) : ℤ) = z * (q.den : ℤ) := by
        exact_mod_cast h1
      have hdvd : (q.den : ℤ) ∣ q.num * Int.ofNat (pow2 m) := by
        refine ⟨z, ?_⟩
        simp only [Int.ofNat_eq_coe, pow2_eq]
        rw [hz2]
        ring
      have hex := roundQ_exact (q.num * Int.ofNat (pow2 m)) q.den hden hdvd
      rw [Rat.mkRat_eq_div, hex]
      have step2 : (((q.num * Int.ofNat (pow2 m) : ℤ):ℚ) / (q.den:ℚ)) / ((pow2 m : ℕ):ℚ)
          = (q.num:ℚ) / (q.den:ℚ) := by
        simp only [Int.ofNat_eq_coe, pow2_eq]
        push_cast
        field_simp
        ring
      rw [step2, Rat.num_div_den]

theorem roundDbl_zero : roundDbl 0 = 0 := by
  rw [roundDbl, if_pos (show (0:ℚ).num = 0 by norm_num), ofIntQ_eq, Int.cast_zero]

theorem int_abs_cast_q (m : ℤ) : |(m:ℚ)| = (m.natAbs : ℚ) := by
  rw [Int.cast_natAbs, Int.cast_abs]

theorem roundDbl_fix (m t : ℤ) (hm : m.natAbs ≤ 2 ^ 53) (ht : -1074 ≤ t) :
    roundDbl ((m:ℚ) * (2:ℚ) ^ t) = (m:ℚ) * (2:ℚ) ^ t := by
  by_cases hm0 : m = 0
  · subst hm0
    simp only [Int.cast_zero, zero_mul]
    exact roundDbl_zero
  set q : ℚ := (m:ℚ) * (2:ℚ)^t with hqdef
  have hq0 : q ≠ 0 := by
    apply mul_ne_zero
    · exact_mod_cast hm0
    · positivity
  have hqn : q.num ≠ 0 := fun h => hq0 (Rat.num_eq_zero.mp h)
  obtain ⟨hlo, hhi⟩ := qlog2_spec q hqn
  have hpt : (0:ℚ) < (2:ℚ)^t := by positivity
  have habs : |q| = (m.natAbs : ℚ) * (2:ℚ)^t := by
    rw [hqdef, abs_mul, abs_of_pos hpt, int_abs_cast_q]
  have h53 : ((2^53 : ℕ) : ℚ) = (2:ℚ)^((53:ℕ):ℤ) := (zpow_ofNat_q 53).symm
  have hub : |q| ≤ (2:ℚ)^(t + 53) := by
    rw [habs, zpow_add₀ (by norm_num : (2:ℚ) ≠ 0)]
    have hcast : (m.natAbs : ℚ) ≤ ((2^53 : ℕ) : ℚ) := by exact_mod_cast hm
    calc (m.natAbs : ℚ) * (2:ℚ)^t ≤ ((2^53 : ℕ) : ℚ) * (2:ℚ)^t :=
          mul_le_mul_of_nonneg_right hcast (le_of_lt hpt)
    _ = (2:ℚ)^t * (2:ℚ)^(53:ℤ) := by
          rw [h53]
          norm_num
          ring
  have he_le : qlog2 q ≤ t + 53 := by
    rw [← zpow_le_zpow_iff_right₀ (by norm_num : (1:ℚ) < 2)]
    exact le_trans hlo hub
  have hcase : dgrid q ≤ t ∨ (dgrid q = t + 1 ∧ 2^53 ≤ m.natAbs) := by
    rw [dgrid]
    by_cases hsub : qlog2 q ≤ -1022
    · left
      rw [if_pos hsub]
      omega
    · rw [if_neg hsub]
      by_cases hsmall : qlog2 q ≤ t + 52
      · left
        omega
      · right
        have heq : qlog2 q = t + 53 := by omega
        refine ⟨by omega, ?_⟩
        have h1 : (2:ℚ)^(t+53) ≤ (m.natAbs:ℚ) * (2:ℚ)^t := by
          rw [← habs, ← heq]
          exact hlo
        rw [zpow_add₀ (by norm_num : (2:ℚ) ≠ 0)] at h1
        have h2 : (2:ℚ)^((53:ℤ)) ≤ (m.natAbs:ℚ) := by
          have := (mul_le_mul_right hpt).mp (by linarith [h1] :
            (2:ℚ)^((53:ℤ)) * (2:ℚ)^t ≤ (m.natAbs:ℚ) * (2:ℚ)^t)
          exact this
        rw [show ((53:ℤ)) = ((53:ℕ):ℤ) by norm_num, ← h53] at h2
        exact_mod_cast h2
  rcases hcase with hle | ⟨heq1, h53le⟩
  · apply roundDbl_exact q (m * 2^(t - dgrid q).toNat)
    have hexp : ((m * 2^(t - dgrid q).toNat : ℤ) : ℚ) * (2:ℚ)^(dgrid q)
        = (m:ℚ) * (2:ℚ)^t := by
      push_cast
      rw [mul_assoc]
      congr 1
      rw [show ((2:ℚ)^(t - dgrid q).toNat = (2:ℚ)^(((t - dgrid q).toNat : ℕ):ℤ)) from
        (zpow_natCast _ _).symm]
      rw [← zpow_add₀ (by norm_num : (2:ℚ) ≠ 0)]
      congr 1
      omega
    rw [hexp]
  · have habs53 : m.natAbs = 2^53 := le_antisymm hm h53le
    have heven : ∃ m2 : ℤ, m = 2 * m2 := by
      have h2 : Even m.natAbs := by
        rw [habs53]
        exact (Nat.even_pow.mpr ⟨even_two, by norm_num⟩)
      obtain ⟨k, hk⟩ := Int.natAbs_even.mp h2
      exact ⟨k, by omega⟩
    obtain ⟨m2, hm2⟩ := heven
    apply roundDbl_exact q m2
    rw [heq1, hqdef, hm2]
    push_cast
    rw [zpow_add₀ (by norm_num : (2:ℚ) ≠ 0)]
    ring

theorem twoPow1024_eq : twoPow1024 = (2:ℚ)^(1024:ℕ) := by
  rw [twoPow1024, natQ_eq, pow2_eq]
  push_cast
  ring

theorem roundDblOv_fin (q : ℚ) (h : |roundDbl q| < (2:ℚ)^(1024:ℕ)) :
    roundDblOv q = .fin (roundDbl q) := by
  obtain ⟨h1, h2⟩ := abs_lt.mp h
  have hb1 : Rat.blt (roundDbl q) twoPow1024 = true := by
    rw [blt_iff, twoPow1024_eq]
    exact h2
  have hb2 : Rat.blt (Rat.neg twoPow1024) (roundDbl q) = true := by
    rw [blt_iff, show Rat.neg twoPow1024 = -twoPow1024 from rfl, twoPow1024_eq]
    exact h1
  rw [roundDblOv]
  simp only [hb1, hb2, Bool.true_eq_false, if_false]

theorem roundDbl_int (a : ℤ) (ha : a.natAbs ≤ 2^53) : roundDbl ((a:ℚ)) = (a:ℚ) := by
  have h := roundDbl_fix a 0 ha (by norm_num)
  simpa using h

theorem roundDblOv_int (a : ℤ) (ha : a.natAbs ≤ 2^53) :
    roundDblOv ((a:ℚ)) = .fin ((a:ℚ)) := by
  have hfix := roundDbl_int a ha
  have hb : |(a:ℚ)| < (2:ℚ)^(1024:ℕ) := by
    rw [int_abs_cast_q]
    calc (a.natAbs:ℚ) ≤ ((2^53:ℕ):ℚ) := by exact_mod_cast ha
    _ < (2:ℚ)^(1024:ℕ) := by norm_num
  rw [roundDblOv_fin ((a:ℚ)) (by rw [hfix]; exact hb), hfix]


theorem jsub_fin (a b : ℚ) : jsub (.fin a) (.fin b) = roundDblOv (a - b) := rfl

/-- C1 (corrected): `compareTo` fails with the cross-currency `MoneyException`
exactly when the codes differ, and otherwise returns the binary64 difference
of the amounts.  That difference is the exact signed integer difference
whenever both amounts are integers and the difference has magnitude at most
`2 ^ 53`; outside that range the subtraction rounds (see the counterexample),
so the "exact" clause of the claim needs this restriction. -/
theorem compareTo_spec (a b : Money) :
    (a.currency.code ≠ b.currency.code →
      a.compareTo b = .error (.moneyException
        "Impossible to compare monetary values with different currencies.")) ∧
    (a.currency.code = b.currency.code →
      a.compareTo b = .ok (jsub a.amount b.amount)) ∧
    (∀ p q : ℤ, a.currency.code = b.currency.code →
      a.amount = .fin (Rat.ofInt p) → b.amount = .fin (Rat.ofInt q) →
      (p - q).natAbs ≤ 2 ^ 53 →
      a.compareTo b = .ok (.fin (Rat.ofInt (p - q)))) := by
  refine ⟨compareTo_diff a b, compareTo_same a b, ?_⟩
  intro p q hcode hp hq hle
  rw [compareTo_same a b hcode, hp, hq]
  have hsub : jsub (.fin (Rat.ofInt p)) (.fin (Rat.ofInt q))
      = roundDblOv (((p - q : ℤ) : ℚ)) := by
    rw [jsub_fin, ofIntQ_eq, ofIntQ_eq]
    congr 1
    push_cast
    ring
  rw [hsub, roundDblOv_int _ hle, ofIntQ_eq]

/-- Counterexample to C1 as stated: both operands are constructible
(`2 ^ 53 - 1` and `-2` are accepted by the constructor), but `compareTo`
returns `2 ^ 53 = 9007199254740992`, not the exact signed difference
`9007199254740993`: binary64 subtraction rounds. -/
theorem compareTo_exact_counterexample :
    Money.new (.fin (Rat.ofInt 9007199254740991)) eur
      = .ok ⟨.fin (Rat.ofInt 9007199254740991), eur⟩ ∧
    Money.new (.fin (Rat.ofInt (-2))) eur = .ok ⟨.fin (Rat.ofInt (-2)), eur⟩ ∧
    Money.compareTo ⟨.fin (Rat.ofInt 9007199254740991), eur⟩
        ⟨.fin (Rat.ofInt (-2)), eur⟩
      = .ok (.fin (Rat.ofInt 9007199254740992)) ∧
    (9007199254740991 : ℤ) - (-2) = 9007199254740993 := by
  refine ⟨?_, ?_, ?_, by decide⟩ <;> with_unfolding_all decide

/-- Witness for C1: an in-range exact difference and a cross-currency error. -/
theorem compareTo_spec_witness :
    (Money.compareTo ⟨.fin (Rat.ofInt 1034), eur⟩ ⟨.fin (Rat.ofInt 34), eur⟩
      = .ok (.fin (Rat.ofInt 1000))) ∧
    (Money.compareTo ⟨.fin (Rat.ofInt 100), eur⟩ ⟨.fin (Rat.ofInt 100), usd⟩
      = .error (.moneyException
        "Impossible to compare monetary values with different currencies.")) := by
  constructor
  · exact (compareTo_spec ⟨.fin (Rat.ofInt 1034), eur⟩ ⟨.fin (Rat.ofInt 34), eur⟩).2.2
      1034 34 rfl rfl rfl (by norm_num)
  · exact (compareTo_spec ⟨.fin (Rat.ofInt 100), eur⟩ ⟨.fin (Rat.ofInt 100), usd⟩).1
      (by decide)

/-! ### Decimal digit rendering lemmas -/

theorem digitsVal_append (A B : List Char) :
    digitsVal (A ++ B) = B.foldl (fun a c => 10 * a + charDigit c) (digitsVal A) := by
  rw [digitsVal, List.foldl_append]
  rfl

theorem digitsVal_snoc (A : List Char) (c : Char) :
    digitsVal (A ++ [c]) = 10 * digitsVal A + charDigit c := by
  rw [digitsVal_append]
  rfl

theorem charDigit_digitChar : ∀ m, m < 10 → charDigit (Nat.digitChar m) = m := by decide

theorem digitChar_isDigit : ∀ m, m < 10 → (Nat.digitChar m).isDigit = true := by decide

theorem natDigits_val : ∀ fuel n, n ≤ fuel → digitsVal (natDigits fuel n) = n := by
  intro fuel
  induction fuel with
  | zero =>
    intro n h
    have : n = 0 := by omega
    subst this
    rfl
  | succ f ih =>
    intro n h
    rw [natDigits]
    by_cases hn : n < 10
    · rw [if_pos hn]
      have : digitsVal [Nat.digitChar n] = charDigit (Nat.digitChar n) := by
        rw [show [Nat.digitChar n] = [] ++ [Nat.digitChar n] from rfl, digitsVal_snoc]
        simp [digitsVal]
      rw [this, charDigit_digitChar n hn]
    · rw [if_neg hn]
      rw [digitsVal_snoc]
      rw [ih (n / 10) (by omega)]
      rw [charDigit_digitChar (n % 10) (by omega)]
      omega

theorem natDigits_all_digit : ∀ fuel n c, c ∈ natDigits fuel n → c.isDigit = true := by
  intro fuel
  induction fuel with
  | zero =>
    intro n c hc
    simp [natDigits] at hc
  | succ f ih =>
    intro n c hc
    rw [natDigits] at hc
    by_cases hn : n < 10
    · rw [if_pos hn] at hc
      simp at hc
      rw [hc]
      exact digitChar_isDigit n hn
    · rw [if_neg hn] at hc
      rw [List.mem_append] at hc
      rcases hc with hc | hc
      · exact ih (n / 10) c hc
      · simp at hc
        rw [hc]
        exact digitChar_isDigit (n % 10) (by omega)

theorem natDigits_ne_nil : ∀ fuel n, 0 < fuel → natDigits fuel n ≠ [] := by
  intro fuel n h
  cases fuel with
  | zero => omega
  | succ f =>
    rw [natDigits]
    by_cases hn : n < 10
    · rw [if_pos hn]
      simp
    · rw [if_neg hn]
      simp

theorem natDigits_length_le : ∀ fuel n k, n ≤ fuel → 0 < k → n < 10 ^ k →
    (natDigits fuel n).length ≤ k := by
  intro fuel
  induction fuel with
  | zero =>
    intro n k h hk hn
    have : n = 0 := by omega
    subst this
    simp [natDigits]
  | succ f ih =>
    intro n k h hk hn
    rw [natDigits]
    by_cases h10 : n < 10
    · rw [if_pos h10]
      simpa using hk
    · rw [if_neg h10]
      rw [List.length_append]
      have hk2 : 2 ≤ k := by
        by_contra hc
        have : k = 1 := by omega
        subst this
        simp at hn
        omega
      have hs : (natDigits f (n / 10)).length ≤ k - 1 := by
        apply ih (n / 10) (k - 1) (by omega) (by omega)
        have : 10 ^ k = 10 ^ (k - 1) * 10 := by
          rw [← pow_succ]
          congr 1
          omega
        omega
      simp only [List.length_singleton]
      omega

theorem natDecimal_val (n : ℕ) : digitsVal (natDecimal n) = n :=
  natDigits_val (n + 1) n (by omega)

theorem natDecimal_ne_nil (n : ℕ) : natDecimal n ≠ [] :=
  natDigits_ne_nil (n + 1) n (by omega)

theorem natDecimal_all_digit (n : ℕ) : ∀ c ∈ natDecimal n, c.isDigit = true :=
  fun c hc => natDigits_all_digit (n + 1) n c hc

theorem natDecimal_length_le (n k : ℕ) (hk : 0 < k) (hn : n < 10 ^ k) :
    (natDecimal n).length ≤ k :=
  natDigits_length_le (n + 1) n k (by omega) hk hn

theorem zeroPad_length (ds : List Char) (f : ℕ) (h : ds.length ≤ f) :
    (zeroPad ds f).length = f := by
  rw [zeroPad, List.length_append, List.length_replicate]
  omega

theorem zeroPad_all_digit (ds : List Char) (f : ℕ)
    (h : ∀ c ∈ ds, c.isDigit = true) : ∀ c ∈ zeroPad ds f, c.isDigit = true := by
  intro c hc
  rw [zeroPad, List.mem_append] at hc
  rcases hc with hc | hc
  · rw [List.eq_of_mem_replicate hc]
    decide
  · exact h c hc

theorem digitsVal_replicate_zero (k : ℕ) :
    List.foldl (fun a c => 10 * a + charDigit c) 0 (List.replicate k '0') = 0 := by
  induction k with
  | zero => rfl
  | succ m ih =>
    rw [List.replicate_succ, List.foldl_cons]
    simpa using ih

theorem digitsVal_zeroPad (ds : List Char) (f : ℕ) :
    digitsVal (zeroPad ds f) = digitsVal ds := by
  rw [zeroPad, digitsVal, List.foldl_append, digitsVal_replicate_zero]
  rfl

theorem takeWhile_append_all (p : Char → Bool) (A L : List Char)
    (h : ∀ c ∈ A, p c = true) : (A ++ L).takeWhile p = A ++ L.takeWhile p := by
  induction A with
  | nil => rfl
  | cons a rest ih =>
    rw [List.cons_append, List.takeWhile_cons_of_pos (h a (by simp))]
    rw [ih (fun c hc => h c (by simp [hc]))]
    rfl

theorem dropWhile_append_all (p : Char → Bool) (A L : List Char)
    (h : ∀ c ∈ A, p c = true) : (A ++ L).dropWhile p = L.dropWhile p := by
  induction A with
  | nil => rfl
  | cons a rest ih =>
    rw [List.cons_append, List.dropWhile_cons_of_pos (h a (by simp))]
    exact ih (fun c hc => h c (by simp [hc]))

/-! ### `toFixed` produces the exact decimal rendering when the
half-up integer is recovered exactly -/

theorem roundDbl_close (v : ℚ) (hlow : (2:ℚ)^(-(400:ℤ)) ≤ |v|) :
    |roundDbl v - v| ≤ |v| * (2:ℚ)^(-(53:ℤ)) := by
  have hv0 : v ≠ 0 := by
    intro h
    rw [h, abs_zero] at hlow
    have : (0:ℚ) < (2:ℚ)^(-(400:ℤ)) := by positivity
    linarith
  have hnum : v.num ≠ 0 := fun h => hv0 (Rat.num_eq_zero.mp h)
  obtain ⟨hlo, hhi⟩ := qlog2_spec v hnum
  have he : -401 ≤ qlog2 v := by
    by_contra hc
    push_neg at hc
    have h1 : qlog2 v + 1 ≤ -400 := by omega
    have h2 : (2:ℚ)^(qlog2 v + 1) ≤ (2:ℚ)^(-(400:ℤ)) :=
      zpow_le_zpow_right₀ (by norm_num) h1
    linarith
  have hg : dgrid v = qlog2 v - 52 := by
    rw [dgrid, if_neg (by omega)]
  have herr := roundDbl_err v
  rw [hg] at herr
  calc |roundDbl v - v| ≤ (2:ℚ)^(qlog2 v - 52 - 1) := herr
  _ = (2:ℚ)^(qlog2 v) * (2:ℚ)^(-(53:ℤ)) := by
      rw [← zpow_add₀ (by norm_num : (2:ℚ) ≠ 0)]
      congr 1
      omega
  _ ≤ |v| * (2:ℚ)^(-(53:ℤ)) := by
      apply mul_le_mul_of_nonneg_right hlo (by positivity)

theorem jsToFixed_eq_decimal (x : ℚ) (aa : ℤ) (f : ℕ)
    (hclose : |x * (10:ℚ)^f - (aa:ℚ)| < 1/2)
    (hpos : 0 ≤ aa → 0 ≤ x) (hneg : aa < 0 → x < 0) :
    jsToFixed (.fin x) f = decimalString aa f := by
  have harm : jsToFixed (.fin x) f =
      if Rat.blt x (Rat.ofInt 0) then String.mk ('-' :: toFixedPos (Rat.neg x) f)
      else String.mk (toFixedPos x f) := rfl
  have hmul : ∀ y : ℚ, Rat.mul y (natQ (10 ^ f)) = y * (10:ℚ)^f := by
    intro y
    show y * natQ (10^f) = _
    rw [natQ_eq]
    push_cast
    ring
  rcases le_or_lt 0 aa with hc | hc
  · have hx0 : (0:ℚ) ≤ x := hpos hc
    have hblt : Rat.blt x (Rat.ofInt 0) = false := by
      rw [blt_false_iff, ofIntQ_eq, Int.cast_zero]
      exact hx0
    rw [harm, hblt]
    simp only [Bool.false_eq_true, if_false]
    rw [toFixedPos, hmul]
    rw [halfUp_near (x * (10:ℚ)^f) aa hclose]
    rw [decimalString, decimalChars, if_neg (by omega : ¬ aa < 0)]
    rw [show aa.toNat = aa.natAbs by omega]
    rfl
  · have hx0 : x < 0 := hneg hc
    have hblt : Rat.blt x (Rat.ofInt 0) = true := by
      rw [blt_iff, ofIntQ_eq, Int.cast_zero]
      exact hx0
    rw [harm, hblt, if_pos rfl]
    rw [toFixedPos, show Rat.neg x = -x from rfl, hmul]
    have hclose2 : |(-x) * (10:ℚ)^f - ((-aa : ℤ):ℚ)| < 1/2 := by
      push_cast
      rw [show -x * (10:ℚ)^f - -(aa:ℚ) = -(x * (10:ℚ)^f - (aa:ℚ)) by ring, abs_neg]
      exact hclose
    rw [halfUp_near ((-x) * (10:ℚ)^f) (-aa) hclose2]
    rw [decimalString, decimalChars, if_pos hc]
    rw [show (-aa).toNat = aa.natAbs by omega]
    rfl

theorem basePow_val (c : Currency) (hb : c.base = 10) :
    c.basePow = (10:ℚ) ^ c.exponent := by
  rw [Currency.basePow, hb, natQ_eq]
  push_cast
  ring

theorem toString_conv (a : ℤ) (c : Currency) (hb : c.base = 10) :
    Money.toString ⟨.fin (Rat.ofInt a), c⟩
      = jsToFixed (roundDblOv ((a:ℚ) / (10:ℚ)^c.exponent)) c.exponent
          ++ " " ++ c.code := by
  have harm : Money.toString ⟨.fin (Rat.ofInt a), c⟩
      = jsToFixed (jdiv (.fin (Rat.ofInt a)) (.fin c.basePow)) c.exponent
          ++ " " ++ c.code := rfl
  have hdivarm : jdiv (.fin (Rat.ofInt a)) (.fin c.basePow)
      = if c.basePow.num = 0 then
          (if (Rat.ofInt a).num = 0 then .nan else .inf (decide (0 < (Rat.ofInt a).num)))
        else roundDblOv (Rat.div (Rat.ofInt a) c.basePow) := rfl
  have hv : Rat.div (Rat.ofInt a) c.basePow = (a:ℚ) / (10:ℚ)^c.exponent := by
    show Rat.ofInt a / c.basePow = _
    rw [ofIntQ_eq, basePow_val c hb]
  rw [harm, hdivarm, if_neg (basePow_num_ne c hb), hv]

/-- C3 (corrected): for a base-10 currency, `toString` renders the exact
decimal representation of `amount / 10 ^ exponent` with exactly `exponent`
fractional digits, a leading minus for negative amounts, a space and the
code — provided `|amount| < 2 ^ 52`.  The claim's "no integer precision loss
for any amount in the safe envelope" is too strong: between `2 ^ 52` and
`2 ^ 53 - 1` the binary64 division can round the final digit (see the
counterexample), so the exactness range must be restricted. -/
theorem toString_decimal_spec (a : ℤ) (c : Currency)
    (hb : c.base = 10) (he : c.exponent ≤ 100) (ha : a.natAbs < 2 ^ 52) :
    Money.toString ⟨.fin (Rat.ofInt a), c⟩
      = decimalString a c.exponent ++ " " ++ c.code := by
  rw [toString_conv a c hb]
  set e := c.exponent with hes
  set v : ℚ := (a:ℚ) / (10:ℚ)^e with hv
  clear_value v
  have hp10 : (0:ℚ) < (10:ℚ)^e := by positivity
  by_cases ha0 : a = 0
  · subst ha0
    have hv0 : v = 0 := by
      rw [hv]
      push_cast
      simp
    have hzero : roundDblOv v = .fin 0 := by
      rw [hv0, roundDblOv_fin 0 (by rw [roundDbl_zero]; simpa using (by positivity : (0:ℚ) < (2:ℚ)^(1024:ℕ))), roundDbl_zero]
    rw [hzero]
    have hren := jsToFixed_eq_decimal 0 0 e (by norm_num) (fun _ => le_refl 0)
      (fun h => absurd h (by norm_num))
    rw [hren]
  · have hnapos : 0 < a.natAbs := Int.natAbs_pos.mpr ha0
    have habsv : |v| = (a.natAbs:ℚ) / (10:ℚ)^e := by
      rw [hv, abs_div, abs_of_pos hp10, int_abs_cast_q]
    have h2pow : (10:ℚ)^e ≤ (2:ℚ)^((4*e:ℕ):ℤ) := by
      rw [zpow_ofNat_q]
      have hnat : (10:ℕ)^e ≤ 2^(4*e) := by
        rw [pow_mul]
        exact Nat.pow_le_pow_left (by norm_num) e
      calc (10:ℚ)^e = ((10^e:ℕ):ℚ) := by push_cast; ring
      _ ≤ ((2^(4*e):ℕ):ℚ) := by exact_mod_cast hnat
    have hstep : (2:ℚ)^(-(400:ℤ)) * (10:ℚ)^e ≤ 1 := by
      calc (2:ℚ)^(-(400:ℤ)) * (10:ℚ)^e
          ≤ (2:ℚ)^(-(400:ℤ)) * (2:ℚ)^((4*e:ℕ):ℤ) :=
            mul_le_mul_of_nonneg_left h2pow (by positivity)
      _ = (2:ℚ)^(-(400:ℤ) + ((4*e:ℕ):ℤ)) :=
            (zpow_add₀ (by norm_num : (2:ℚ) ≠ 0) _ _).symm
      _ ≤ (2:ℚ)^(0:ℤ) := zpow_le_zpow_right₀ (by norm_num) (by omega)
      _ = 1 := zpow_zero 2
    have hlow : (2:ℚ)^(-(400:ℤ)) ≤ |v| := by
      rw [habsv, le_div_iff hp10]
      calc (2:ℚ)^(-(400:ℤ)) * (10:ℚ)^e ≤ 1 := hstep
      _ ≤ (a.natAbs:ℚ) := by exact_mod_cast hnapos
    have hxv := roundDbl_close v hlow
    set x := roundDbl v with hx
    clear_value x
    have hvxa : v * (10:ℚ)^e = (a:ℚ) := by
      rw [hv, div_mul_cancel₀]
      positivity
    have heps_le : (2:ℚ)^(-(53:ℤ)) ≤ (2:ℚ)^(-(1:ℤ)) :=
      zpow_le_zpow_right₀ (by norm_num) (by omega)
    have hhalf : (2:ℚ)^(-(1:ℤ)) = 1/2 := by norm_num
    have hmain : |x * (10:ℚ)^e - (a:ℚ)| < 1/2 := by
      rw [← hvxa]
      rw [show x * ((10:ℚ)^e) - v * (10:ℚ)^e = (x - v) * (10:ℚ)^e by ring]
      rw [abs_mul, abs_of_pos hp10]
      calc |x - v| * (10:ℚ)^e ≤ (|v| * (2:ℚ)^(-(53:ℤ))) * (10:ℚ)^e :=
            mul_le_mul_of_nonneg_right hxv (le_of_lt hp10)
      _ = (a.natAbs:ℚ) * (2:ℚ)^(-(53:ℤ)) := by
            rw [habsv]
            field_simp
            ring
      _ < ((2^52:ℕ):ℚ) * (2:ℚ)^(-(53:ℤ)) := by
            apply mul_lt_mul_of_pos_right _ (by positivity)
            exact_mod_cast ha
      _ = 1/2 := by
            rw [show ((2^52:ℕ):ℚ) = (2:ℚ)^((52:ℕ):ℤ) from (zpow_ofNat_q 52).symm,
              ← zpow_add₀ (by norm_num : (2:ℚ) ≠ 0)]
            norm_num
    have hsign1 : 0 ≤ a → 0 ≤ x := by
      intro h0
      have hapos : 0 < a := lt_of_le_of_ne h0 (Ne.symm ha0)
      have hvp : 0 < v := by
        rw [hv]
        apply div_pos _ hp10
        exact_mod_cast hapos
      have habs_vv : |v| = v := abs_of_pos hvp
      have h1 := (abs_le.mp hxv).1
      rw [habs_vv] at h1
      have h2 : v * (2:ℚ)^(-(53:ℤ)) ≤ v * (1/2) :=
        mul_le_mul_of_nonneg_left (le_trans heps_le (le_of_eq hhalf)) (le_of_lt hvp)
      generalize hP : (2:ℚ)^(-(53:ℤ)) = P at h1 h2
      linarith
    have hsign2 : a < 0 → x < 0 := by
      intro h0
      have hvn : v < 0 := by
        rw [hv]
        apply div_neg_of_neg_of_pos _ hp10
        exact_mod_cast h0
      have habs_vv : |v| = -v := abs_of_neg hvn
      have h1 := (abs_le.mp hxv).2
      rw [habs_vv] at h1
      have h2 : (-v) * (2:ℚ)^(-(53:ℤ)) ≤ (-v) * (1/2) :=
        mul_le_mul_of_nonneg_left (le_trans heps_le (le_of_eq hhalf))
          (by linarith : (0:ℚ) ≤ -v)
      generalize hP : (2:ℚ)^(-(53:ℤ)) = P at h1 h2
      linarith
    have hover : |x| < (2:ℚ)^(1024:ℕ) := by
      have h1 : |x| - |v| ≤ |x - v| := abs_sub_abs_le_abs_sub x v
      have h2 : |v| ≤ (a.natAbs:ℚ) := by
        rw [habsv]
        apply div_le_self (by positivity) (one_le_pow₀ (by norm_num))
      have h3 : |v| * (2:ℚ)^(-(53:ℤ)) ≤ |v| * 1 :=
        mul_le_mul_of_nonneg_left (le_trans heps_le (by rw [hhalf]; norm_num))
          (abs_nonneg v)
      have h4 : (a.natAbs:ℚ) < (2:ℚ)^((52:ℕ):ℤ) := by
        rw [zpow_ofNat_q]
        exact_mod_cast ha
      have h5 : (2:ℚ)^((52:ℕ):ℤ) + (2:ℚ)^((52:ℕ):ℤ) = (2:ℚ)^((53:ℕ):ℤ) := by
        rw [show (((53:ℕ)):ℤ) = 1 + ((52:ℕ):ℤ) by norm_num,
          zpow_add₀ (by norm_num : (2:ℚ) ≠ 0), zpow_one]
        ring
      have h6 : (2:ℚ)^((53:ℕ):ℤ) < (2:ℚ)^((1024:ℕ):ℤ) :=
        (zpow_lt_zpow_iff_right₀ (by norm_num)).mpr (by norm_num)
      have h7 : (2:ℚ)^((1024:ℕ):ℤ) = (2:ℚ)^(1024:ℕ) := zpow_natCast 2 1024
      generalize hP : (2:ℚ)^(-(53:ℤ)) = P at h3 hxv
      linarith
    rw [roundDblOv_fin v (by rw [← hx]; exact hover), ← hx]
    have hren := jsToFixed_eq_decimal x a e hmain hsign1 hsign2
    rw [hren]

/-- Counterexample to C3 as stated: `7036874417766407` is in the safe
envelope (the constructor accepts it), but `toString` prints
`"70368744177664.06 EUR"` while the exact decimal rendering ends in `.07`:
the binary64 division by `100` loses the final digit. -/
theorem toString_decimal_counterexample :
    Money.new (.fin (Rat.ofInt 7036874417766407)) eur
      = .ok ⟨.fin (Rat.ofInt 7036874417766407), eur⟩ ∧
    Money.toString ⟨.fin (Rat.ofInt 7036874417766407), eur⟩
      = "70368744177664.06 EUR" ∧
    decimalString 7036874417766407 2 ++ " " ++ "EUR" = "70368744177664.07 EUR" := by
  refine ⟨?_, ?_, ?_⟩ <;> with_unfolding_all decide

/-- Witness for C3: the spec's own examples, positive and negative. -/
theorem toString_decimal_spec_witness :
    Money.toString ⟨.fin (Rat.ofInt 1034), eur⟩ = "10.34 EUR" ∧
    Money.toString ⟨.fin (Rat.ofInt (-500)), usd⟩ = "-5.00 USD" := by
  constructor
  · have h := toString_decimal_spec 1034 eur rfl (by decide)
      (by with_unfolding_all decide)
    rw [h]
    with_unfolding_all decide
  · have h := toString_decimal_spec (-500) usd rfl (by decide)
      (by with_unfolding_all decide)
    rw [h]
    with_unfolding_all decide

/-! ### `parseFloat` on a rendered fixed-point decimal -/

theorem isDigit_ne_space (c : Char) (h : c.isDigit = true) : c ≠ ' ' := by
  intro hc
  rw [hc] at h
  exact absurd h (by decide)

theorem parseFloatCore_frac (A P : List Char) (hA_ne : A ≠ [])
    (hA_dig : ∀ c ∈ A, c.isDigit = true) (hP_dig : ∀ c ∈ P, c.isDigit = true) :
    parseFloatCore (A ++ '.' :: P)
      = roundDblOv (Rat.mul
          (Rat.add (natQ (digitsVal A))
            (mkRat (Int.ofNat (digitsVal P)) (10 ^ P.length)))
          (powTen 0)) := by
  have hinf : ¬((A ++ '.' :: P).take 8 = ['I','n','f','i','n','i','t','y']) := by
    cases A with
    | nil => exact absurd rfl hA_ne
    | cons a A' =>
      intro hcon
      rw [List.cons_append, show (8:ℕ) = 7 + 1 from rfl, List.take_succ_cons] at hcon
      injection hcon with ha _
      have hd := hA_dig a (List.mem_cons_self a A')
      rw [ha] at hd
      exact absurd hd (by decide)
  have hd1 : (A ++ '.' :: P).takeWhile Char.isDigit = A := by
    rw [takeWhile_append_all Char.isDigit A ('.' :: P) hA_dig,
      List.takeWhile_cons_of_neg (by decide)]
    simp
  have hr1 : (A ++ '.' :: P).dropWhile Char.isDigit = '.' :: P := by
    rw [dropWhile_append_all Char.isDigit A _ hA_dig,
      List.dropWhile_cons_of_neg (by decide)]
  have hP1 : P.takeWhile Char.isDigit = P := by
    have h := takeWhile_append_all Char.isDigit P [] hP_dig
    simpa using h
  have hP2 : P.dropWhile Char.isDigit = [] := by
    have h := dropWhile_append_all Char.isDigit P [] hP_dig
    simpa using h
  rw [parseFloatCore, if_neg hinf]
  simp only [hd1, hr1, hP1, hP2]
  rw [if_neg (by simp [hA_ne])]
  rfl

theorem fracVal (dA dP : ℕ) (L : ℕ) :
    Rat.mul (Rat.add (natQ dA) (mkRat (Int.ofNat dP) (10 ^ L))) (powTen 0)
      = (dA:ℚ) + (dP:ℚ) / (10:ℚ)^L := by
  have h1 : powTen 0 = 1 := by
    rw [powTen, if_pos (le_refl 0)]
    rw [show ((0:ℤ).toNat = 0) from rfl, pow_zero, natQ_eq]
    norm_num
  show (natQ dA + mkRat (Int.ofNat dP) (10^L)) * powTen 0 = _
  rw [h1, mul_one, natQ_eq, Rat.mkRat_eq_div]
  simp only [Int.ofNat_eq_coe]
  push_cast
  ring

theorem parseFloatCore_render (n f : ℕ) (hf : 0 < f) :
    parseFloatCore (renderFixedChars n f) = roundDblOv ((n:ℚ) / (10:ℚ)^f) := by
  have hf0 : ¬ f = 0 := by omega
  rw [renderFixedChars, if_neg hf0]
  set A := natDecimal (n / 10^f) with hA
  set P := zeroPad (natDecimal (n % 10^f)) f with hP
  have hA_ne : A ≠ [] := natDecimal_ne_nil _
  have hA_dig : ∀ c ∈ A, c.isDigit = true := natDecimal_all_digit (n / 10^f)
  have hP_dig : ∀ c ∈ P, c.isDigit = true :=
    zeroPad_all_digit _ f (natDecimal_all_digit _)
  rw [parseFloatCore_frac A P hA_ne hA_dig hP_dig, fracVal]
  have hvA : digitsVal A = n / 10^f := natDecimal_val _
  have hvP : digitsVal P = n % 10^f := by
    rw [hP, digitsVal_zeroPad, natDecimal_val]
  have hlen : P.length = f := by
    rw [hP, zeroPad_length]
    exact natDecimal_length_le _ f hf (Nat.mod_lt _ (by positivity))
  rw [hvA, hvP, hlen]
  congr 1
  have hdecomp : 10^f * (n / 10^f) + n % 10^f = n := Nat.div_add_mod n (10^f)
  have hp : (0:ℚ) < (10:ℚ)^f := by positivity
  have hc : ((10^f * (n / 10^f) + n % 10^f : ℕ) : ℚ) = (n:ℚ) := by
    exact_mod_cast congrArg (Nat.cast : ℕ → ℚ) hdecomp
  push_cast at hc
  field_simp
  linarith

theorem parseFloat_core_of_head (c : Char) (cs : List Char)
    (hws : isWS c = false) (hp : c ≠ '+') (hm : c ≠ '-') :
    parseFloat (c :: cs) = parseFloatCore (c :: cs) := by
  rw [parseFloat]
  rw [List.dropWhile_cons_of_neg (by simp [hws])]
  split
  · rename_i heq
    exact absurd (by injection heq) hp
  · rename_i heq
    exact absurd (by injection heq) hm
  · rfl

theorem parseFloat_neg_head (rest : List Char) :
    parseFloat ('-' :: rest) = jneg (parseFloatCore rest) := by
  rw [parseFloat]
  rw [List.dropWhile_cons_of_neg (by decide)]
  rfl

theorem natDigits_digitChar : ∀ fuel n c, c ∈ natDigits fuel n →
    ∃ m, m < 10 ∧ c = Nat.digitChar m := by
  intro fuel
  induction fuel with
  | zero =>
    intro n c hc
    simp [natDigits] at hc
  | succ f ih =>
    intro n c hc
    rw [natDigits] at hc
    by_cases hn : n < 10
    · rw [if_pos hn] at hc
      simp at hc
      exact ⟨n, hn, hc⟩
    · rw [if_neg hn] at hc
      rw [List.mem_append] at hc
      rcases hc with hc | hc
      · exact ih _ c hc
      · simp at hc
        exact ⟨n % 10, by omega, hc⟩

theorem ws_digit_facts : ∀ m, m < 10 → isWS (Nat.digitChar m) = false ∧
    Nat.digitChar m ≠ '+' ∧ Nat.digitChar m ≠ '-' := by decide

theorem parseFloat_render (n f : ℕ) (hf : 0 < f) :
    parseFloat (renderFixedChars n f) = roundDblOv ((n:ℚ) / (10:ℚ)^f) := by
  have hstruct : ∃ a A', renderFixedChars n f = a :: A' ∧
      ∃ m, m < 10 ∧ a = Nat.digitChar m := by
    rw [renderFixedChars, if_neg (by omega)]
    cases hA : natDecimal (n / 10^f) with
    | nil => exact absurd hA (natDecimal_ne_nil _)
    | cons a A' =>
      refine ⟨a, A' ++ '.' :: _, by rw [List.cons_append], ?_⟩
      apply natDigits_digitChar (n / 10^f + 1) (n / 10^f) a
      rw [show natDigits (n / 10^f + 1) (n / 10^f) = natDecimal (n / 10^f) from rfl, hA]
      exact List.mem_cons_self a A'
  obtain ⟨a, A', hren, m, hm, ham⟩ := hstruct
  obtain ⟨hws, hp, hneg⟩ := ws_digit_facts m hm
  rw [hren, parseFloat_core_of_head a A' (by rw [ham]; exact hws)
    (by rw [ham]; exact hp) (by rw [ham]; exact hneg), ← hren]
  exact parseFloatCore_render n f hf

theorem renderFixedChars_no_space (n f : ℕ) : ' ' ∉ renderFixedChars n f := by
  intro hmem
  rw [renderFixedChars] at hmem
  by_cases hf : f = 0
  · rw [if_pos hf] at hmem
    exact absurd (natDecimal_all_digit n ' ' hmem) (by decide)
  · rw [if_neg hf] at hmem
    rw [List.mem_append] at hmem
    rcases hmem with h | h
    · exact absurd (natDecimal_all_digit _ ' ' h) (by decide)
    · rw [List.mem_cons] at h
      rcases h with h | h
      · exact absurd h (by decide)
      · exact absurd (zeroPad_all_digit _ _ (natDecimal_all_digit _) ' ' h) (by decide)

theorem decimalChars_no_space (a : ℤ) (f : ℕ) : ' ' ∉ decimalChars a f := by
  intro hmem
  rw [decimalChars, List.mem_append] at hmem
  rcases hmem with h | h
  · by_cases ha : a < 0
    · rw [if_pos ha, List.mem_singleton] at h
      exact absurd h (by decide)
    · rw [if_neg ha] at h
      exact absurd h (List.not_mem_nil ' ')
  · exact renderFixedChars_no_space _ _ h

theorem jtrunc_int (a : ℤ) : jtrunc (.fin ((a:ℚ))) = .fin (Rat.ofInt a) := by
  show JSNum.fin (Rat.ofInt (Int.tdiv ((a:ℚ)).num (Int.ofNat ((a:ℚ)).den))) = _
  rw [Rat.num_intCast, Rat.den_intCast]
  norm_num

theorem parse_tokens_rendered (a : ℤ) (f : ℕ) (code : String)
    (hsp : ' ' ∉ code.data) :
    amountToken (decimalString a f ++ " " ++ code) = decimalChars a f ∧
    currencyToken (decimalString a f ++ " " ++ code) = some code := by
  have htl : (decimalString a f ++ " " ++ code).toList
      = decimalChars a f ++ ' ' :: code.data := by
    rw [show (decimalString a f ++ " " ++ code).toList
        = (decimalChars a f ++ [' ']) ++ code.data from rfl]
    rw [List.append_assoc, List.singleton_append]
  have hsplit : splitChars ((decimalString a f ++ " " ++ code).toList) []
      = [decimalChars a f, code.data] := by
    rw [htl, splitChars_space _ _ [] (decimalChars_no_space a f)]
    rw [splitChars_no_space code.data [] hsp]
    simp
  constructor
  · rw [amountToken, hsplit]
    rfl
  · rw [currencyToken, hsplit]
    rfl

theorem roundDblOv_zero : roundDblOv 0 = .fin 0 := by
  rw [roundDblOv_fin 0 (by rw [roundDbl_zero, abs_zero]; positivity), roundDbl_zero]

theorem equals_self_int (a : ℤ) (c : Currency) :
    Money.equals ⟨.fin (Rat.ofInt a), c⟩ ⟨.fin (Rat.ofInt a), c⟩ = .ok true := by
  rw [Money.equals, compareTo_same _ _ rfl]
  show Except.ok (jeq (jsub (.fin (Rat.ofInt a)) (.fin (Rat.ofInt a)))
    (.fin (Rat.ofInt 0))) = .ok true
  rw [jsub_fin, sub_self, roundDblOv_zero]
  show Except.ok (decide ((0:ℚ) = Rat.ofInt 0)) = .ok true
  rw [ofIntQ_eq, Int.cast_zero]
  simp

/-- C4 (corrected): the round-trip holds for the spec's own instance
(`"10.34 EUR"`), and in general for a currency with exponent 2 and base 10
exactly when the amount survives both conversions; amounts that are
multiples of 25 (so that `amount / 100` is exactly representable in
binary64) round-trip for the whole safe envelope.  For other amounts the
claim fails: see the counterexample with amount 29. -/
theorem parse_toString_roundtrip :
    (∀ (k : ℤ) (c : Currency),
      Currency.parse (some c.code) = .ok c → c.exponent = 2 → c.base = 10 →
      ' ' ∉ c.code.data → (25 * k).natAbs ≤ 2 ^ 53 - 1 →
      Money.parse (Money.toString ⟨.fin (Rat.ofInt (25 * k)), c⟩)
          = .ok ⟨.fin (Rat.ofInt (25 * k)), c⟩ ∧
      Money.equals ⟨.fin (Rat.ofInt (25 * k)), c⟩ ⟨.fin (Rat.ofInt (25 * k)), c⟩
          = .ok true) ∧
    Money.parse "10.34 EUR" = .ok ⟨.fin (Rat.ofInt 1034), eur⟩ ∧
    Money.toString ⟨.fin (Rat.ofInt 1034), eur⟩ = "10.34 EUR" := by
  refine ⟨?_, by with_unfolding_all decide, by with_unfolding_all decide⟩
  intro k c hc he hb hsp hk
  set a : ℤ := 25 * k with ha
  have h253 : (2:ℕ)^53 = 9007199254740992 := by norm_num
  have hka : a.natAbs = 25 * k.natAbs := by
    rw [ha, Int.natAbs_mul]
    rfl
  have hk53 : k.natAbs ≤ 2^53 := by
    rw [h253]
    rw [hka, h253] at hk
    omega
  have ha53 : a.natAbs ≤ 2^53 := by
    rw [h253]
    rw [h253] at hk
    omega
  have hp10 : (0:ℚ) < (10:ℚ)^c.exponent := by positivity
  have hv4 : ((a:ℚ)) / (10:ℚ)^c.exponent = (k:ℚ) * (2:ℚ)^(-(2:ℤ)) := by
    have h100 : (10:ℚ)^c.exponent = 100 := by
      rw [he]
      norm_num
    have h4 : (2:ℚ)^(-(2:ℤ)) = 1/4 := by norm_num
    rw [h100, h4, ha]
    push_cast
    ring
  have hoverN : ∀ z : ℤ, z.natAbs ≤ 2^53 →
      |(z:ℚ) * (2:ℚ)^(-(2:ℤ))| < (2:ℚ)^(1024:ℕ) := by
    intro z hz
    rw [abs_mul, abs_of_pos (by positivity : (0:ℚ) < (2:ℚ)^(-(2:ℤ))), int_abs_cast_q]
    have h1 : (z.natAbs:ℚ) ≤ ((2^53:ℕ):ℚ) := by exact_mod_cast hz
    have h2 : (2:ℚ)^(-(2:ℤ)) ≤ 1 := by norm_num
    have h3 : ((2^53:ℕ):ℚ) < (2:ℚ)^(1024:ℕ) := by norm_num
    calc (z.natAbs:ℚ) * (2:ℚ)^(-(2:ℤ)) ≤ (z.natAbs:ℚ) * 1 :=
          mul_le_mul_of_nonneg_left h2 (Nat.cast_nonneg _)
    _ = (z.natAbs:ℚ) := mul_one _
    _ ≤ ((2^53:ℕ):ℚ) := h1
    _ < (2:ℚ)^(1024:ℕ) := h3
  have hx : roundDbl ((a:ℚ) / (10:ℚ)^c.exponent) = (a:ℚ) / (10:ℚ)^c.exponent := by
    rw [hv4]
    exact roundDbl_fix k (-2) hk53 (by norm_num)
  have hstr : Money.toString ⟨.fin (Rat.ofInt a), c⟩
      = decimalString a c.exponent ++ " " ++ c.code := by
    rw [toString_conv a c hb]
    have hovfin : roundDblOv ((a:ℚ)/(10:ℚ)^c.exponent)
        = .fin ((a:ℚ)/(10:ℚ)^c.exponent) := by
      rw [roundDblOv_fin _ (by rw [hx, hv4]; exact hoverN k hk53), hx]
    rw [hovfin]
    have hclose : |((a:ℚ)/(10:ℚ)^c.exponent) * (10:ℚ)^c.exponent - (a:ℚ)| < 1/2 := by
      rw [div_mul_cancel₀ _ (ne_of_gt hp10), sub_self, abs_zero]
      norm_num
    have hsign1 : 0 ≤ a → 0 ≤ (a:ℚ)/(10:ℚ)^c.exponent := fun h =>
      div_nonneg (by exact_mod_cast h) (le_of_lt hp10)
    have hsign2 : a < 0 → (a:ℚ)/(10:ℚ)^c.exponent < 0 := fun h =>
      div_neg_of_neg_of_pos (by exact_mod_cast h) hp10
    rw [jsToFixed_eq_decimal _ a c.exponent hclose hsign1 hsign2]
  obtain ⟨htok1, htok2⟩ := parse_tokens_rendered a c.exponent c.code hsp
  have hpf : parseFloat (decimalChars a c.exponent)
      = .fin ((a:ℚ)/(10:ℚ)^c.exponent) := by
    rcases le_or_lt 0 a with hc0 | hc0
    · have hchars : decimalChars a c.exponent
          = renderFixedChars a.natAbs c.exponent := by
        rw [decimalChars, if_neg (by omega)]
        rfl
      have hnn : ((a.natAbs:ℕ):ℚ) = (a:ℚ) := by
        rw [← int_abs_cast_q]
        exact abs_of_nonneg (by exact_mod_cast hc0)
      rw [hchars, parseFloat_render _ _ (by rw [he]; norm_num), hnn, hv4]
      rw [roundDblOv_fin _ (by
          rw [roundDbl_fix k (-2) hk53 (by norm_num)]
          exact hoverN k hk53)]
      rw [roundDbl_fix k (-2) hk53 (by norm_num), ← hv4]
    · have hchars : decimalChars a c.exponent
          = '-' :: renderFixedChars a.natAbs c.exponent := by
        rw [decimalChars, if_pos hc0]
        rfl
      have hnn : ((a.natAbs:ℕ):ℚ) = -(a:ℚ) := by
        rw [← int_abs_cast_q]
        exact abs_of_neg (by exact_mod_cast hc0)
      have hnk : (-k).natAbs ≤ 2^53 := by
        rw [Int.natAbs_neg]
        exact hk53
      have hv4n : (-(a:ℚ))/(10:ℚ)^c.exponent = ((-k:ℤ):ℚ) * (2:ℚ)^(-(2:ℤ)) := by
        rw [neg_div, hv4]
        push_cast
        ring
      rw [hchars, parseFloat_neg_head, parseFloatCore_render _ _ (by rw [he]; norm_num)]
      rw [hnn, hv4n]
      rw [roundDblOv_fin _ (by
          rw [roundDbl_fix (-k) (-2) hnk (by norm_num)]
          exact hoverN (-k) hnk)]
      rw [roundDbl_fix (-k) (-2) hnk (by norm_num)]
      show JSNum.fin (Rat.neg (((-k:ℤ):ℚ) * (2:ℚ)^(-(2:ℤ)))) = _
      rw [show Rat.neg (((-k:ℤ):ℚ) * (2:ℚ)^(-(2:ℤ)))
          = -(((-k:ℤ):ℚ) * (2:ℚ)^(-(2:ℤ))) from rfl]
      rw [hv4]
      push_cast
      ring_nf
  have hjm : jmul (.fin ((a:ℚ)/(10:ℚ)^c.exponent)) (.fin c.basePow)
      = .fin ((a:ℚ)) := by
    show roundDblOv (Rat.mul ((a:ℚ)/(10:ℚ)^c.exponent) c.basePow) = _
    rw [show Rat.mul ((a:ℚ)/(10:ℚ)^c.exponent) c.basePow = ((a:ℚ)) from by
      show ((a:ℚ)/(10:ℚ)^c.exponent) * c.basePow = _
      rw [basePow_val c hb]
      exact div_mul_cancel₀ _ (ne_of_gt hp10)]
    exact roundDblOv_int a ha53
  have hmax : maxSafeInteger = ((2^53 - 1 : ℕ):ℚ) := by
    rw [maxSafeInteger, natQ_eq, pow2_eq]
  have habs_a : |(a:ℚ)| ≤ ((2^53 - 1:ℕ):ℚ) := by
    rw [int_abs_cast_q]
    exact_mod_cast hk
  have hb1 : Rat.ofInt a ≤ maxSafeInteger := by
    rw [ofIntQ_eq, hmax]
    calc (a:ℚ) ≤ |(a:ℚ)| := le_abs_self _
    _ ≤ _ := habs_a
  have hb2 : minSafeInteger ≤ Rat.ofInt a := by
    rw [ofIntQ_eq]
    rw [show minSafeInteger = -(natQ (pow2 53 - 1)) from rfl, natQ_eq, pow2_eq]
    calc -((2^53-1:ℕ):ℚ) ≤ -|(a:ℚ)| := by linarith [habs_a]
    _ ≤ (a:ℚ) := neg_abs_le _
  constructor
  · rw [hstr]
    rw [show Money.parse (decimalString a c.exponent ++ " " ++ c.code) =
      Money.parseCore (decimalString a c.exponent ++ " " ++ c.code)
        (amountToken (decimalString a c.exponent ++ " " ++ c.code))
        (currencyToken (decimalString a c.exponent ++ " " ++ c.code)) from rfl]
    rw [htok1, htok2]
    unfold Money.parseCore
    rw [hc]
    dsimp only
    rw [hpf, hjm]
    rw [show (JSNum.fin ((a:ℚ))).isNaN = false from rfl]
    simp only [Bool.false_eq_true, if_false]
    rw [jtrunc_int]
    exact moneyNew_ok (Rat.ofInt a) c hb2 hb1
  · exact equals_self_int a c

/-- Counterexample to C4 as stated: amount 29 (exponent-2 currency) does
not round-trip.  `toString` prints `"0.29 EUR"`, but parsing that string
computes `parseFloat("0.29") * 100 = 28.999999999999996`, which truncates
to 28, and the recovered Money is not `equals` to the original. -/
theorem parse_toString_counterexample :
    Money.new (.fin (Rat.ofInt 29)) eur = .ok ⟨.fin (Rat.ofInt 29), eur⟩ ∧
    Money.toString ⟨.fin (Rat.ofInt 29), eur⟩ = "0.29 EUR" ∧
    Money.parse "0.29 EUR" = .ok ⟨.fin (Rat.ofInt 28), eur⟩ ∧
    Money.equals ⟨.fin (Rat.ofInt 28), eur⟩ ⟨.fin (Rat.ofInt 29), eur⟩
      = .ok false := by
  refine ⟨?_, ?_, ?_, ?_⟩ <;> with_unfolding_all decide

/-- Witness for C4: the round-trip at the multiple of 25 amount 1025 EUR. -/
theorem parse_toString_roundtrip_witness :
    Money.parse (Money.toString ⟨.fin (Rat.ofInt (25 * 41)), eur⟩)
      = .ok ⟨.fin (Rat.ofInt (25 * 41)), eur⟩ ∧
    Money.equals ⟨.fin (Rat.ofInt (25 * 41)), eur⟩ ⟨.fin (Rat.ofInt (25 * 41)), eur⟩
      = .ok true :=
  parse_toString_roundtrip.1 41 eur (by with_unfolding_all decide) rfl rfl
    (by decide) (by with_unfolding_all decide)
